import Mathlib

/-!
Shallow embedding of the cilens GitLab analysis pipeline (Rust) in Lean 4.

Conventions used throughout:
* Rust `f64` durations and rates are modelled as `ℚ` (the program only adds,
  divides and takes maxima of non-negative finite values, so field arithmetic
  on `ℚ` captures the intended real-number semantics of the formulas).
* Rust `HashMap` accumulators are modelled either as update functions
  (`String → ℕ`) or as association lists in first-insertion order; iteration
  order of a Rust `HashMap` is arbitrary, and every theorem below is stated so
  that it holds for the deterministic order chosen here.
* Recursions that Rust runs on the call stack (the memoized finish-time
  computation, cursor pagination) take an explicit fuel argument; theorems
  assume enough fuel, matching the termination assumptions of the source.
-/

namespace Cilens

/-- `src/providers/gitlab/types.rs`: `GitLabJob`. `duration: f64` is modelled
as `ℚ`; `needs: Option<Vec<String>>` keeps the three-valued shape
(absent / empty / explicit list). -/
structure GitLabJob where
  id : String
  name : String
  stage : String
  duration : ℚ
  status : String
  retried : Bool
  needs : Option (List String)
deriving Repr, DecidableEq

/-- `src/providers/gitlab/types.rs`: `GitLabPipeline`. `duration: usize` is a
`ℕ`. -/
structure GitLabPipeline where
  id : String
  ref_ : String
  source : String
  status : String
  duration : ℕ
  stages : List String
  jobs : List GitLabJob
deriving Repr, DecidableEq

/-! ## `src/auth/token.rs` -/

/-- `Token(String)`: an opaque wrapper around a secret string. -/
structure Token where
  value : String
deriving Repr, DecidableEq

/-- `impl From<&str> for Token`. -/
def Token.fromStr (s : String) : Token := ⟨s⟩

/-- `Token::as_str`. -/
def Token.asStr (t : Token) : String := t.value

/-- `impl Debug for Token`: `write!(f, "<redacted>")` — the rendering ignores
the wrapped value entirely. -/
def Token.debugFmt (_ : Token) : String := "<redacted>"

/-! ## `src/providers/gitlab/url_utils.rs` -/

/-- `extract_numeric_id`: `gid.rsplit('/').next().unwrap_or(gid)` — the
segment after the final `/`, or the whole string when there is none. -/
def extractNumericId (gid : String) : String :=
  ((gid.splitOn "/").getLast?).getD gid

/-- `pipeline_id_to_url`. -/
def pipelineIdToUrl (baseUrl projectPath gid : String) : String :=
  baseUrl ++ "/" ++ projectPath ++ "/-/pipelines/" ++ extractNumericId gid

/-- `job_id_to_url`. -/
def jobIdToUrl (baseUrl projectPath gid : String) : String :=
  baseUrl ++ "/" ++ projectPath ++ "/-/jobs/" ++ extractNumericId gid

/-! ## String helpers

Rust `str::contains` (substring test) and `str::to_lowercase` on the ASCII
keywords used by the label scan. -/

/-- Character-list version of "`pat` occurs at the start". -/
def charsStartWith : List Char → List Char → Bool
  | [], _ => true
  | _ :: _, [] => false
  | a :: as_, b :: bs => a == b && charsStartWith as_ bs

/-- Character-list version of Rust `str::contains` (substring occurrence). -/
def charsContain (s pat : List Char) : Bool :=
  match s with
  | [] => pat.isEmpty
  | _ :: rest => charsStartWith pat s || charsContain rest pat

/-- Rust `str::contains` on strings. -/
def strContains (s pat : String) : Bool :=
  charsContain s.toList pat.toList

/-- Rust `str::to_lowercase`, restricted to the per-`char` lowering relevant
to the ASCII keywords scanned by the label generator. -/
def strToLower (s : String) : String :=
  String.mk (s.toList.map Char.toLower)

/-! ## `src/providers/gitlab/job_analysis.rs`

The Rust code builds `job_map: HashMap<&str, &GitLabJob>` from
`pipeline.jobs.iter().map(|j| (j.name, j)).collect()`: when a name occurs
several times (retries) the later record overwrites the earlier one, so a
lookup yields the last record with that name. -/

/-- Lookup in `job_map`: the last job in the list with the given name
(`HashMap::collect` keeps the last insertion per key). -/
def jobMapGet (jobs : List GitLabJob) (name : String) : Option GitLabJob :=
  match jobs with
  | [] => none
  | j :: rest =>
    match jobMapGet rest name with
    | some k => some k
    | none => if j.name = name then some j else none

/-- The key set of `job_map`: the distinct job names.  A Rust `HashMap`
iterates its keys in arbitrary order; `List.dedup` fixes one order. -/
def jobMapKeys (p : GitLabPipeline) : List String :=
  (p.jobs.map GitLabJob.name).dedup

/-- Lookup of `p`'s `job_map` at a name. -/
def GitLabPipeline.jobAt (p : GitLabPipeline) (name : String) : Option GitLabJob :=
  jobMapGet p.jobs name

/-- `stage_index`: `pipeline.stages.iter().enumerate().map(|(i, s)| (s, i))
.collect::<HashMap<_, _>>()` — for a duplicated stage name the later (larger)
index overwrites, hence `getLast?`. -/
def stageIndexGet (stages : List String) (s : String) : Option ℕ :=
  ((stages.enum.filter (fun e => e.2 = s)).getLast?).map Prod.fst

/-- `get_dependencies`: the three dependency-resolution modes.
`needs = Some([])` → no dependencies; `needs = Some(list)` → exactly that
list; `needs = None` → every job of the map whose stage index
(`unwrap_or(0)`) is strictly below this job's stage index. -/
def getDependencies (p : GitLabPipeline) (j : GitLabJob) : List String :=
  match j.needs with
  | some [] => []
  | some needs => needs
  | none =>
    let currentStage := (stageIndexGet p.stages j.stage).getD 0
    (jobMapKeys p).filter (fun name =>
      match p.jobAt name with
      | some other => decide ((stageIndexGet p.stages other.stage).getD 0 < currentStage)
      | none => false)

/-- Value of Rust `Iterator::max_by` over a list of `ℚ`: the maximum, `0` on
the empty list (the `unwrap_or(("", 0.0))` default). -/
def listMaxQ : List ℚ → ℚ
  | [] => 0
  | x :: xs => xs.foldl max x

/-- Rust `Iterator::max_by` over `(dep, time)` pairs, keeping the last of
several equal maxima, with the `unwrap_or(("", 0.0))` default. -/
def maxByTime : List (String × ℚ) → String × ℚ
  | [] => ("", 0)
  | x :: xs => xs.foldl (fun acc y => if acc.2 ≤ y.2 then y else acc) x

/-- `calculate_finish_time`, value semantics.  The Rust function memoizes in
`finish_times`; since the memo only caches results of this same pure
recursion, the computed values are those of the plain recursion, written here
with explicit fuel (the Rust recursion diverges on a cyclic `needs` graph; the
theorems below assume enough fuel via a rank function).  A name missing from
the job map gets `0`; empty dependencies give the job's own duration;
otherwise the maximal dependency finish time plus the duration. -/
def finishTime (p : GitLabPipeline) : ℕ → String → ℚ
  | 0, _ => 0
  | fuel + 1, name =>
    match p.jobAt name with
    | none => 0
    | some j =>
      match getDependencies p j with
      | [] => j.duration
      | deps@(_ :: _) => listMaxQ (deps.map (fun d => finishTime p fuel d)) + j.duration

/-- The `predecessors` table entry for one job, value semantics of
`calculate_finish_time`'s bookkeeping: the arg-max dependency (last maximal
one, per `max_by`), recorded only when its finish time is strictly positive
(`if slowest_time > 0.0`). -/
def predOf (p : GitLabPipeline) (fuel : ℕ) (name : String) : Option String :=
  match p.jobAt name with
  | none => none
  | some j =>
    match getDependencies p j with
    | [] => none
    | deps@(_ :: _) =>
      let slowest := maxByTime (deps.map (fun d => (d, finishTime p fuel d)))
      if 0 < slowest.2 then some slowest.1 else none

/-- Name chain of `std::iter::successors(Some(job_name), …).skip(1)`: the
recorded predecessor of `name`, then its predecessor, and so on, with fuel
bounding the walk (the chain is finite on the acyclic graphs the source
assumes). -/
def predChain (p : GitLabPipeline) (fuel : ℕ) : ℕ → String → List String
  | 0, _ => []
  | steps + 1, name =>
    match predOf p fuel name with
    | none => []
    | some m => m :: predChain p fuel steps m

/-- `PredecessorJob` of `src/insights.rs`. -/
structure PredecessorJob where
  name : String
  avg_duration_seconds : ℚ
deriving Repr, DecidableEq

/-- `build_predecessor_list`: walk the predecessor chain, keep the names that
are in the job map (pairing each with its duration), and reverse into
source-toward-job order. -/
def buildPredecessorList (p : GitLabPipeline) (fuel steps : ℕ) (name : String) :
    List PredecessorJob :=
  ((predChain p fuel steps name).filterMap (fun n =>
    (p.jobAt n).map (fun j => PredecessorJob.mk n j.duration))).reverse

/-- Per-pipeline job metrics record as constructed by
`calculate_job_metrics` (name, duration, finish time, predecessor chain; the
reliability placeholders it zero-fills are irrelevant downstream and
omitted). -/
structure PipeJobMetrics where
  name : String
  avg_duration_seconds : ℚ
  avg_time_to_feedback_seconds : ℚ
  predecessors : List PredecessorJob
deriving Repr, DecidableEq

/-- Canonical fuel: strictly more than the number of distinct job names, which
bounds every acyclic dependency chain through the job map. -/
def pipelineFuel (p : GitLabPipeline) : ℕ :=
  (jobMapKeys p).length + 1

/-- `calculate_job_metrics`: one record per job-map key, sorted by
time-to-feedback descending (Rust's stable `sort_by`; map iteration order is
arbitrary, so tie order is arbitrary there and fixed here). -/
def calculateJobMetrics (p : GitLabPipeline) : List PipeJobMetrics :=
  if p.jobs.isEmpty then []
  else
    let fuel := pipelineFuel p
    let metrics := (jobMapKeys p).filterMap (fun name =>
      (p.jobAt name).map (fun j =>
        PipeJobMetrics.mk name j.duration (finishTime p fuel name)
          (buildPredecessorList p fuel fuel name)))
    List.insertionSort
      (fun a b => b.avg_time_to_feedback_seconds ≤ a.avg_time_to_feedback_seconds)
      metrics

/-! ## `src/providers/gitlab/type_metrics.rs` — reliability pass -/

/-- `group_jobs_by_name`, entry for one name: the pipeline's records with
that name, in job-list order (the fold pushes in iteration order). -/
def recordsOf (p : GitLabPipeline) (name : String) : List GitLabJob :=
  p.jobs.filter (fun j => j.name == name)

/-- The key set of `group_jobs_by_name` (distinct names; `HashMap` order is
arbitrary, fixed here by `dedup`). -/
def groupedNames (p : GitLabPipeline) : List String :=
  (p.jobs.map GitLabJob.name).dedup

/-- `is_job_flaky`: some record was retried AND the first non-retried record
exists and has status `SUCCESS`. -/
def isJobFlaky (jobs : List GitLabJob) : Bool :=
  (jobs.any GitLabJob.retried) &&
    (match jobs.find? (fun j => !j.retried) with
     | some j => j.status == "SUCCESS"
     | none => false)

/-- `is_job_failed`: there is no non-retried record, or the first non-retried
record's status is not `SUCCESS` (`find(..).is_none_or(..)`). -/
def isJobFailed (jobs : List GitLabJob) : Bool :=
  match jobs.find? (fun j => !j.retried) with
  | some j => j.status != "SUCCESS"
  | none => true

/-- `calculate_rate`: `count / total * 100` when `total > 0`, else `0`. -/
def calculateRate (count total : ℕ) : ℚ :=
  if 0 < total then ((count : ℚ) / (total : ℚ)) * 100 else 0

/-- The five accumulator maps of `calculate_job_reliability`, modelled as
total functions (a key absent from the Rust `HashMap` reads as the
`or_insert`/`or_default` value `0` resp. `[]`). -/
structure RelAcc where
  executionCounts : String → ℕ
  flakyRetries : String → ℕ
  flakyJobLinks : String → List String
  failedExecutions : String → ℕ
  failedJobLinks : String → List String

/-- The empty accumulators. -/
def RelAcc.init : RelAcc :=
  ⟨fun _ => 0, fun _ => 0, fun _ => [], fun _ => 0, fun _ => []⟩

/-- Pointwise update of a counter map. -/
def bumpCount (f : String → ℕ) (k : String) (n : ℕ) : String → ℕ :=
  fun x => if x = k then f k + n else f x

/-- Pointwise extension of a link map. -/
def extendLinks (f : String → List String) (k : String) (ls : List String) :
    String → List String :=
  fun x => if x = k then f k ++ ls else f x

/-- Body of the `for (name, jobs) in jobs_by_name` loop of
`calculate_job_reliability`: bump the execution count by the record count,
then either credit flaky retries (with one URL per retried record) or credit
one failed execution (with the final record's URL when present). -/
def processName (baseUrl projectPath : String) (p : GitLabPipeline)
    (acc : RelAcc) (name : String) : RelAcc :=
  let jobs := recordsOf p name
  let acc := { acc with
    executionCounts := bumpCount acc.executionCounts name jobs.length }
  if isJobFlaky jobs then
    let retryLinks := (jobs.filter GitLabJob.retried).map
      (fun j => jobIdToUrl baseUrl projectPath j.id)
    { acc with
      flakyRetries := bumpCount acc.flakyRetries name retryLinks.length
      flakyJobLinks := extendLinks acc.flakyJobLinks name retryLinks }
  else if isJobFailed jobs then
    let acc := { acc with
      failedExecutions := bumpCount acc.failedExecutions name 1 }
    match jobs.find? (fun j => !j.retried) with
    | some finalJob =>
      { acc with
        failedJobLinks := extendLinks acc.failedJobLinks name
          [jobIdToUrl baseUrl projectPath finalJob.id] }
    | none => acc
  else acc

/-- Per-pipeline step of `calculate_job_reliability`: iterate the grouped
names of one pipeline. -/
def processPipeline (baseUrl projectPath : String) (acc : RelAcc)
    (p : GitLabPipeline) : RelAcc :=
  (groupedNames p).foldl (processName baseUrl projectPath p) acc

/-- `JobReliabilityMetrics` of `type_metrics.rs`. -/
structure JobReliabilityMetrics where
  total_executions : ℕ
  flakiness_rate : ℚ
  flaky_retries : ℕ
  flaky_job_links : List String
  failure_rate : ℚ
  failed_executions : ℕ
  failed_job_links : List String
deriving Repr, DecidableEq

/-- `compute_reliability_metrics` at one observed name. -/
def reliabilityAt (acc : RelAcc) (name : String) : JobReliabilityMetrics :=
  { total_executions := acc.executionCounts name
    flakiness_rate := calculateRate (acc.flakyRetries name) (acc.executionCounts name)
    flaky_retries := acc.flakyRetries name
    flaky_job_links := acc.flakyJobLinks name
    failure_rate := calculateRate (acc.failedExecutions name) (acc.executionCounts name)
    failed_executions := acc.failedExecutions name
    failed_job_links := acc.failedJobLinks name }

/-- The accumulators after `calculate_job_reliability`'s main loop. -/
def reliabilityAcc (pipelines : List GitLabPipeline) (baseUrl projectPath : String) :
    RelAcc :=
  pipelines.foldl (processPipeline baseUrl projectPath) RelAcc.init

/-- `calculate_job_reliability` as a lookup: `compute_reliability_metrics`
builds one entry per key of `execution_counts`, and a name is a key exactly
when its accumulated count is positive (every grouped name contributes at
least one record). -/
def calculateJobReliability (pipelines : List GitLabPipeline)
    (baseUrl projectPath : String) : String → Option JobReliabilityMetrics :=
  let acc := reliabilityAcc pipelines baseUrl projectPath
  fun name =>
    if 0 < acc.executionCounts name then some (reliabilityAt acc name) else none

/-! ## `src/providers/gitlab/type_metrics.rs` — aggregation -/

/-- `PipelineCountWithLinks` of `src/insights.rs`. -/
structure PipelineCountWithLinks where
  count : ℕ
  links : List String
deriving Repr, DecidableEq

/-- `JobCountWithLinks` of `src/insights.rs`. -/
structure JobCountWithLinks where
  count : ℕ
  links : List String
deriving Repr, DecidableEq

/-- `JobMetrics` of `src/insights.rs`. -/
structure JobMetrics where
  name : String
  avg_duration_seconds : ℚ
  avg_time_to_feedback_seconds : ℚ
  predecessors : List PredecessorJob
  flakiness_rate : ℚ
  flaky_retries : JobCountWithLinks
  failed_executions : JobCountWithLinks
  failure_rate : ℚ
  total_executions : ℕ
deriving Repr, DecidableEq

/-- `TypeMetrics` of `src/insights.rs`. -/
structure TypeMetrics where
  percentage : ℚ
  total_pipelines : ℕ
  successful_pipelines : PipelineCountWithLinks
  failed_pipelines : PipelineCountWithLinks
  success_rate : ℚ
  avg_duration_seconds : ℚ
  avg_time_to_feedback_seconds : ℚ
  jobs : List JobMetrics
deriving Repr, DecidableEq

/-- `PipelineType` of `src/insights.rs`. -/
structure PipelineType where
  label : String
  stages : List String
  ref_patterns : List String
  sources : List String
  metrics : TypeMetrics
deriving Repr, DecidableEq

/-- `compute_mean`: sum divided by length, `0` on the empty list. -/
def computeMean (values : List ℚ) : ℚ :=
  if values.isEmpty then 0 else values.sum / (values.length : ℚ)

/-- `empty_job_count`. -/
def emptyJobCount : JobCountWithLinks := ⟨0, []⟩

/-- `to_pipeline_links`. -/
def toPipelineLinks (pipelines : List GitLabPipeline) (baseUrl projectPath : String) :
    PipelineCountWithLinks :=
  ⟨pipelines.length, pipelines.map (fun p => pipelineIdToUrl baseUrl projectPath p.id)⟩

/-- `calculate_success_rate`: `successful / max(total, 1) * 100`. -/
def calculateSuccessRate (successful total : ℕ) : ℚ :=
  ((successful : ℚ) / (max total 1 : ℕ)) * 100

/-- `calculate_avg_duration`: mean pipeline duration, `0` on no pipelines. -/
def calculateAvgDuration (pipelines : List GitLabPipeline) : ℚ :=
  if pipelines.isEmpty then 0
  else (pipelines.map (fun p => (p.duration : ℚ))).sum / (pipelines.length : ℚ)

/-- `Iterator::min_by` over `ℚ`: the minimum when the list is non-empty. -/
def listMinQ? : List ℚ → Option ℚ
  | [] => none
  | x :: xs => some (xs.foldl min x)

/-- `JobData` accumulator of `aggregate_job_metrics`. -/
structure JobData where
  durations : List ℚ
  total_durations : List ℚ
  all_predecessor_names : List (List String)
deriving Repr, DecidableEq

/-- `job_data.entry(name).or_default()` followed by the three pushes, on an
association list in first-insertion order. -/
def pushJobData (data : List (String × JobData)) (m : PipeJobMetrics) :
    List (String × JobData) :=
  match data with
  | [] =>
    [(m.name, ⟨[m.avg_duration_seconds], [m.avg_time_to_feedback_seconds],
      [m.predecessors.map PredecessorJob.name]⟩)]
  | (k, d) :: rest =>
    if k = m.name then
      (k, ⟨d.durations ++ [m.avg_duration_seconds],
           d.total_durations ++ [m.avg_time_to_feedback_seconds],
           d.all_predecessor_names ++ [m.predecessors.map PredecessorJob.name]⟩) :: rest
    else (k, d) :: pushJobData rest m

/-- The `job_data` map after both aggregation loops. -/
def collectJobData (perPipelineMetrics : List (List PipeJobMetrics)) :
    List (String × JobData) :=
  perPipelineMetrics.foldl (fun acc ms => ms.foldl pushJobData acc) []

/-- Association-list lookup standing in for `HashMap::get`. -/
def assocGet {κ α : Type} [BEq κ] (l : List (κ × α)) (k : κ) : Option α :=
  (l.find? (fun e => e.1 == k)).map Prod.snd

/-- `create_predecessor_job`: present in `avg_durations` or dropped. -/
def createPredecessorJob (avgDurations : List (String × ℚ)) (name : String) :
    Option PredecessorJob :=
  (assocGet avgDurations name).map (fun d => PredecessorJob.mk name d)

/-- `aggregate_predecessors`: union of observed predecessor names (a
`HashSet`, arbitrary order fixed by `dedup`), mapped to cluster-wide average
durations, sorted descending by duration. -/
def aggregatePredecessors (allPredecessorNames : List (List String))
    (avgDurations : List (String × ℚ)) : List PredecessorJob :=
  if allPredecessorNames.isEmpty then []
  else
    let names := allPredecessorNames.flatten.dedup
    List.insertionSort
      (fun a b => b.avg_duration_seconds ≤ a.avg_duration_seconds)
      (names.filterMap (createPredecessorJob avgDurations))

/-- `build_job_metrics`. -/
def buildJobMetrics (name : String) (data : JobData)
    (avgDurations : List (String × ℚ))
    (reliabilityData : String → Option JobReliabilityMetrics) : JobMetrics :=
  let avg_duration_seconds := (assocGet avgDurations name).getD 0
  let avg_time_to_feedback_seconds := computeMean data.total_durations
  let predecessors := aggregatePredecessors data.all_predecessor_names avgDurations
  match reliabilityData name with
  | some r =>
    ⟨name, avg_duration_seconds, avg_time_to_feedback_seconds, predecessors,
     r.flakiness_rate, ⟨r.flaky_retries, r.flaky_job_links⟩,
     ⟨r.failed_executions, r.failed_job_links⟩, r.failure_rate, r.total_executions⟩
  | none =>
    ⟨name, avg_duration_seconds, avg_time_to_feedback_seconds, predecessors,
     0, emptyJobCount, emptyJobCount, 0, 0⟩

/-- `aggregate_job_metrics`: per-pipeline metrics for the successful
pipelines, the averaged earliest-feedback signal, and the aggregated job
list sorted by time-to-feedback descending. -/
def aggregateJobMetrics (successfulPipelines allPipelines : List GitLabPipeline)
    (baseUrl projectPath : String) : List JobMetrics × ℚ :=
  if successfulPipelines.isEmpty then ([], 0)
  else
    let perPipelineMetrics := successfulPipelines.map calculateJobMetrics
    let firstFeedbackTimes := perPipelineMetrics.filterMap (fun ms =>
      listMinQ? (ms.map PipeJobMetrics.avg_time_to_feedback_seconds))
    let avgTimeToFeedback :=
      if firstFeedbackTimes.isEmpty then 0
      else firstFeedbackTimes.sum / (firstFeedbackTimes.length : ℚ)
    let jobData := collectJobData perPipelineMetrics
    let avgDurations := jobData.map (fun e => (e.1, computeMean e.2.durations))
    let reliabilityData := calculateJobReliability allPipelines baseUrl projectPath
    let jobs := jobData.map (fun e =>
      buildJobMetrics e.1 e.2 avgDurations reliabilityData)
    (List.insertionSort
      (fun a b => b.avg_time_to_feedback_seconds ≤ a.avg_time_to_feedback_seconds)
      jobs,
     avgTimeToFeedback)

/-- `calculate_type_metrics`. -/
def calculateTypeMetrics (pipelines : List GitLabPipeline) (percentage : ℚ)
    (baseUrl projectPath : String) : TypeMetrics :=
  let successful := pipelines.filter (fun p => p.status == "success")
  let failed := pipelines.filter (fun p => p.status == "failed")
  let agg := aggregateJobMetrics successful pipelines baseUrl projectPath
  { percentage
    total_pipelines := pipelines.length
    successful_pipelines := toPipelineLinks successful baseUrl projectPath
    failed_pipelines := toPipelineLinks failed baseUrl projectPath
    success_rate := calculateSuccessRate successful.length pipelines.length
    avg_duration_seconds := calculateAvgDuration successful
    avg_time_to_feedback_seconds := agg.2
    jobs := agg.1 }

/-! ## `src/providers/gitlab/pipeline_types.rs` -/

/-- `extract_job_signature`: the job names, collected into a `BTreeSet` and
iterated back out — i.e. the distinct names in increasing order (UTF-8 byte
order on Rust strings coincides with the code-point order of Lean's
`String` order). -/
def extractJobSignature (p : GitLabPipeline) : List String :=
  List.insertionSort (fun a b => a ≤ b) (p.jobs.map GitLabJob.name).dedup

/-- `clusters.entry(job_signature).or_default().push(pipeline)` on an
association list in first-insertion order. -/
def addToClusters (clusters : List (List String × List GitLabPipeline))
    (key : List String) (p : GitLabPipeline) :
    List (List String × List GitLabPipeline) :=
  match clusters with
  | [] => [(key, [p])]
  | (k, cl) :: rest =>
    if k = key then (k, cl ++ [p]) :: rest
    else (k, cl) :: addToClusters rest key p

/-- The cluster map of `group_pipeline_types` (signature ↦ pipelines, in
input order within each cluster). -/
def clustersOf (pipelines : List GitLabPipeline) :
    List (List String × List GitLabPipeline) :=
  pipelines.foldl (fun cs p => addToClusters cs (extractJobSignature p) p) []

/-- The label scan of `create_pipeline_type`: any name containing `prod`
(case-insensitively) gives "Production Pipeline"; else any name containing
`staging`, `dev`, `test` or `qa` gives "Development Pipeline"; else
"Unknown Pipeline". -/
def pipelineLabel (jobNames : List String) : String :=
  if jobNames.any (fun j => strContains (strToLower j) "prod") then
    "Production Pipeline"
  else if jobNames.any (fun j =>
      let lower := strToLower j
      strContains lower "staging" || strContains lower "dev" ||
        strContains lower "test" || strContains lower "qa") then
    "Development Pipeline"
  else
    "Unknown Pipeline"

/-- `extract_characteristics`: the unique stages over all jobs, unique refs,
unique sources of the cluster (`HashSet`s, arbitrary order fixed by
`dedup`). -/
def extractCharacteristics (pipelines : List GitLabPipeline) :
    List String × List String × List String :=
  ((pipelines.flatMap (fun p => p.jobs.map GitLabJob.stage)).dedup,
   (pipelines.map GitLabPipeline.ref_).dedup,
   (pipelines.map GitLabPipeline.source).dedup)

/-- `create_pipeline_type`: percentage share
(`count / max(total, 1) * 100`), label, characteristics, metrics. -/
def createPipelineType (jobNames : List String)
    (pipelines : List GitLabPipeline) (totalPipelines : ℕ)
    (baseUrl projectPath : String) : PipelineType :=
  let percentage := ((pipelines.length : ℚ) / (max totalPipelines 1 : ℕ)) * 100
  let chars := extractCharacteristics pipelines
  { label := pipelineLabel jobNames
    stages := chars.1
    ref_patterns := chars.2.1
    sources := chars.2.2
    metrics := calculateTypeMetrics pipelines percentage baseUrl projectPath }

/-- `group_pipeline_types`: cluster by signature, build a `PipelineType` per
cluster, keep those whose percentage is at least `min_type_percentage`, and
sort by `total_pipelines` descending (stable `sort_by` over the arbitrary
`HashMap` order, fixed here by first-insertion order). -/
def groupPipelineTypes (pipelines : List GitLabPipeline)
    (minTypePercentage : ℕ) (baseUrl projectPath : String) :
    List PipelineType :=
  let totalPipelines := pipelines.length
  let pipelineTypes := ((clustersOf pipelines).map (fun e =>
    createPipelineType e.1 e.2 totalPipelines baseUrl projectPath)).filter
    (fun pt => (minTypePercentage : ℚ) ≤ pt.metrics.percentage)
  List.insertionSort
    (fun a b => b.metrics.total_pipelines ≤ a.metrics.total_pipelines)
    pipelineTypes

/-! ## `src/providers/gitlab/client/pipelines.rs`

The remote GraphQL endpoint is a parameter: a function from the request a
page loop sends (status filter, cursor, requested count) to the page it
returns.  Pipeline summaries are opaque here (`PS`). -/

/-- The two status filters `fetch_pipelines` uses. -/
inductive PipelineStatusFilter where
  | SUCCESS
  | FAILED
deriving Repr, DecidableEq

/-- One page of the remote's response: the nodes plus `page_info`. -/
structure Page (PS : Type) where
  nodes : List PS
  hasNextPage : Bool
  endCursor : Option String

/-- A remote endpoint: maps (status filter, cursor, requested count) to a
page. -/
def Remote (PS : Type) : Type :=
  PipelineStatusFilter → Option String → ℕ → Page PS

/-- The `loop` of `fetch_pipelines_with_status`, with fuel: compute
`remaining`; stop at `0`; request `min(remaining, 50)` after the cursor;
extend the accumulator; stop when the remote has no next page or enough is
accumulated; advance the cursor, stopping when it is absent. -/
def fetchLoop {PS : Type} (remote : Remote PS) (status : PipelineStatusFilter)
    (limit : ℕ) : ℕ → List PS → Option String → List PS
  | 0, acc, _ => acc
  | fuel + 1, acc, cursor =>
    let remaining := limit - acc.length
    if remaining = 0 then acc
    else
      let fetchCount := min remaining 50
      let page := remote status cursor fetchCount
      let acc := acc ++ page.nodes
      if !page.hasNextPage || limit ≤ acc.length then acc
      else
        match page.endCursor with
        | none => acc
        | some c => fetchLoop remote status limit fuel acc (some c)

/-- `fetch_pipelines_with_status`: run the pagination loop from an empty
accumulator and no cursor, then `truncate(limit)`. -/
def fetchPipelinesWithStatus {PS : Type} (remote : Remote PS)
    (status : PipelineStatusFilter) (limit fuel : ℕ) : List PS :=
  (fetchLoop remote status limit fuel [] none).take limit

/-- The `first` values (requested page sizes) the loop sends, in order —
the same control flow as `fetchLoop`, observed on the requests instead of
the responses. -/
def fetchLoopRequests {PS : Type} (remote : Remote PS)
    (status : PipelineStatusFilter) (limit : ℕ) :
    ℕ → List PS → Option String → List ℕ
  | 0, _, _ => []
  | fuel + 1, acc, cursor =>
    let remaining := limit - acc.length
    if remaining = 0 then []
    else
      let fetchCount := min remaining 50
      let page := remote status cursor fetchCount
      let acc := acc ++ page.nodes
      if !page.hasNextPage || limit ≤ acc.length then [fetchCount]
      else
        match page.endCursor with
        | none => [fetchCount]
        | some c => fetchCount :: fetchLoopRequests remote status limit fuel acc (some c)

/-- `fetch_pipelines`: the SUCCESS and FAILED streams, each capped at
`limit / 2`, concatenated SUCCESS-first and truncated to `limit`. -/
def fetchPipelines {PS : Type} (remote : Remote PS) (limit fuel : ℕ) :
    List PS :=
  let halfLimit := limit / 2
  ((fetchPipelinesWithStatus remote .SUCCESS halfLimit fuel) ++
    (fetchPipelinesWithStatus remote .FAILED halfLimit fuel)).take limit

/-! ## Acyclicity of the dependency graph

`calculate_finish_time` recurses through `get_dependencies`; the source
assumes the graph is acyclic (a cyclic `needs` graph would overflow the
stack, see the design notes of the program).  Acyclicity is expressed by a
rank function that strictly decreases along dependency edges between jobs
present in the job map. -/

/-- The rank condition at one name: every dependency of its job that is
present in the map has a strictly smaller rank. -/
def rankOkAt (p : GitLabPipeline) (r : String → ℕ) (name : String) : Prop :=
  match p.jobAt name with
  | none => True
  | some j => ∀ d ∈ getDependencies p j, (p.jobAt d).isSome = true → r d < r name

instance (p : GitLabPipeline) (r : String → ℕ) (name : String) :
    Decidable (rankOkAt p r name) :=
  match h : p.jobAt name with
  | none => Decidable.isTrue (by unfold rankOkAt; rw [h]; trivial)
  | some j =>
    decidable_of_iff
      (∀ d ∈ getDependencies p j, (p.jobAt d).isSome = true → r d < r name)
      (by unfold rankOkAt; rw [h])

/-- A rank function witnessing acyclicity of the resolved dependency graph. -/
def RankOk (p : GitLabPipeline) (r : String → ℕ) : Prop :=
  ∀ name, rankOkAt p r name

/-! ## Concrete inputs used by counterexamples and witnesses -/

/-- A job record with the given name, stage, duration and needs. -/
def exJob (name stage : String) (dur : ℚ) (needs : Option (List String)) : GitLabJob :=
  ⟨"gid://gitlab/Ci::Job/" ++ name, name, stage, dur, "SUCCESS", false, needs⟩

/-- Scenario "implicit stage dependencies" of the specification: stages
`a`, `b`; `x` (stage `a`, 3s) and `y` (stage `b`, 7s), both with absent
`needs`. -/
def exStagePipeline : GitLabPipeline :=
  ⟨"gid://gitlab/Ci::Pipeline/4", "main", "push", "success", 10, ["a", "b"],
   [exJob "x" "a" 3 none, exJob "y" "b" 7 none]⟩

/-- A rank function for `exStagePipeline`. -/
def exRank : String → ℕ := fun n => if n = "y" then 1 else 0

/-- A pipeline whose only job needs a name absent from the job map. -/
def exDanglingPipeline : GitLabPipeline :=
  ⟨"gid://gitlab/Ci::Pipeline/5", "main", "push", "success", 5, [],
   [exJob "a" "s" 5 (some ["ghost"])]⟩

/-- The job record of `exDanglingPipeline`. -/
def exDanglingJob : GitLabJob := exJob "a" "s" 5 (some ["ghost"])

/-- Scenario "flakiness detection" of the specification: job `t` with a
retried FAILED record and a final SUCCESS record. -/
def exFlakyPipeline : GitLabPipeline :=
  ⟨"gid://gitlab/Ci::Pipeline/6", "main", "push", "success", 11, ["t"],
   [⟨"gid://gitlab/Ci::Job/61", "t", "t", 5, "FAILED", true, some []⟩,
    ⟨"gid://gitlab/Ci::Job/62", "t", "t", 6, "SUCCESS", false, some []⟩]⟩

/-- A pipeline whose single job name contains the keyword `test`. -/
def exTestPipeline : GitLabPipeline :=
  ⟨"gid://gitlab/Ci::Pipeline/7", "main", "push", "success", 1, ["s"],
   [exJob "unit-test" "s" 1 (some [])]⟩

/-- A pipeline with the single job name `alpha` (cluster signature A). -/
def exClusterPipeA : GitLabPipeline :=
  ⟨"gid://gitlab/Ci::Pipeline/8", "main", "push", "success", 100, ["s"],
   [exJob "alpha" "s" 1 (some [])]⟩

/-- A pipeline with the single job name `beta` (cluster signature B). -/
def exClusterPipeB : GitLabPipeline :=
  ⟨"gid://gitlab/Ci::Pipeline/9", "main", "push", "success", 100, ["s"],
   [exJob "beta" "s" 1 (some [])]⟩

/-- Scenario "cluster min-threshold filter": 10 pipelines, 8 of signature A
and 2 of signature B. -/
def exScenarioPipelines : List GitLabPipeline :=
  List.replicate 8 exClusterPipeA ++ List.replicate 2 exClusterPipeB

/-- Job lists with equal name sets but different order and duplicity. -/
def exOrderPipeline1 : GitLabPipeline :=
  ⟨"gid://gitlab/Ci::Pipeline/10", "main", "push", "success", 1, ["s"],
   [exJob "b" "s" 1 (some []), exJob "a" "s" 1 (some []), exJob "a" "s" 2 (some [])]⟩

/-- Same job-name set as `exOrderPipeline1`, other order, no duplicates. -/
def exOrderPipeline2 : GitLabPipeline :=
  ⟨"gid://gitlab/Ci::Pipeline/11", "main", "push", "success", 1, ["s"],
   [exJob "a" "s" 3 (some []), exJob "b" "s" 4 (some [])]⟩

/-- A remote endpoint that answers every page request with exactly the
requested number of nodes and no follow-up page. -/
def exRemote : Remote ℕ := fun _ _ n => ⟨List.range n, false, none⟩

/-! ## Basic lemmas about the job map -/

theorem jobMapGet_spec {jobs : List GitLabJob} {name : String} {j : GitLabJob}
    (h : jobMapGet jobs name = some j) : j ∈ jobs ∧ j.name = name := by
  induction jobs with
  | nil => simp [jobMapGet] at h
  | cons a rest ih =>
    rw [jobMapGet] at h
    cases hr : jobMapGet rest name with
    | some k =>
      rw [hr] at h
      obtain rfl : k = j := by exact Option.some.inj h
      obtain ⟨hm, hn⟩ := ih hr
      exact ⟨List.mem_cons_of_mem _ hm, hn⟩
    | none =>
      rw [hr] at h
      by_cases hname : a.name = name
      · simp only [hname, if_pos rfl] at h
        obtain rfl : a = j := by
          simpa using h
        exact ⟨List.mem_cons_self _ _, hname⟩
      · simp [hname] at h

theorem jobMapGet_eq_none_iff {jobs : List GitLabJob} {name : String} :
    jobMapGet jobs name = none ↔ name ∉ jobs.map GitLabJob.name := by
  induction jobs with
  | nil => simp [jobMapGet]
  | cons a rest ih =>
    rw [jobMapGet]
    cases hr : jobMapGet rest name with
    | some k =>
      have hk := jobMapGet_spec hr
      simp only [List.map_cons, List.mem_cons]
      constructor
      · intro h; cases h
      · intro h
        exact absurd (Or.inr (hk.2 ▸ List.mem_map_of_mem GitLabJob.name hk.1)) h
    | none =>
      have hrest : name ∉ rest.map GitLabJob.name := ih.mp hr
      show (if a.name = name then some a else none) = none ↔
        name ∉ (a :: rest).map GitLabJob.name
      by_cases hname : a.name = name
      · constructor
        · intro h
          rw [if_pos hname] at h
          cases h
        · intro h
          exact absurd
            (by simp only [List.map_cons, List.mem_cons]; exact Or.inl hname.symm) h
      · constructor
        · intro _
          simp only [List.map_cons, List.mem_cons]
          rintro (h | h)
          · exact hname h.symm
          · exact hrest h
        · intro _
          rw [if_neg hname]

theorem jobAt_isSome_iff {p : GitLabPipeline} {name : String} :
    (p.jobAt name).isSome = true ↔ name ∈ jobMapKeys p := by
  rw [jobMapKeys, List.mem_dedup, ← not_iff_not]
  simp only [Option.not_isSome_iff_eq_none]
  exact jobMapGet_eq_none_iff

theorem rankOk_of_keys (p : GitLabPipeline) (r : String → ℕ)
    (h : ∀ name ∈ jobMapKeys p, rankOkAt p r name) : RankOk p r := by
  intro name
  by_cases hm : name ∈ jobMapKeys p
  · exact h name hm
  · unfold rankOkAt
    cases hj : p.jobAt name with
    | none => trivial
    | some j =>
      exact absurd (jobAt_isSome_iff.mp (by simp [hj])) hm

theorem fuelBound_of_keys (p : GitLabPipeline) (r : String → ℕ) (fuel : ℕ)
    (h : ∀ name ∈ jobMapKeys p, r name < fuel) :
    ∀ name, (p.jobAt name).isSome = true → r name < fuel :=
  fun n hn => h n (jobAt_isSome_iff.mp hn)

/-! ## Lemmas about list maxima -/

theorem le_foldl_max (x : ℚ) (xs : List ℚ) : x ≤ xs.foldl max x := by
  induction xs generalizing x with
  | nil => exact le_refl x
  | cons y ys ih => exact le_trans (le_max_left x y) (ih (max x y))

theorem le_foldl_max_of_mem {a : ℚ} {xs : List ℚ} (x : ℚ) (h : a ∈ xs) :
    a ≤ xs.foldl max x := by
  induction xs generalizing x with
  | nil => cases h
  | cons y ys ih =>
    rcases List.mem_cons.mp h with rfl | hm
    · exact le_trans (le_max_right x a) (le_foldl_max _ ys)
    · exact ih (max x y) hm

theorem le_listMaxQ_of_mem {a : ℚ} {l : List ℚ} (h : a ∈ l) : a ≤ listMaxQ l := by
  cases l with
  | nil => cases h
  | cons x xs =>
    rcases List.mem_cons.mp h with rfl | hm
    · exact le_foldl_max a xs
    · exact le_foldl_max_of_mem x hm

theorem listMaxQ_nonneg {l : List ℚ} (h : ∀ a ∈ l, 0 ≤ a) : 0 ≤ listMaxQ l := by
  cases l with
  | nil => exact le_refl 0
  | cons x xs =>
    exact le_trans (h x (List.mem_cons_self x xs)) (le_foldl_max x xs)

theorem foldl_max_mem (x : ℚ) (xs : List ℚ) : xs.foldl max x ∈ x :: xs := by
  induction xs generalizing x with
  | nil => exact List.mem_cons_self x []
  | cons y ys ih =>
    simp only [List.foldl_cons]
    rcases List.mem_cons.mp (ih (max x y)) with heq | hm
    · rw [heq]
      rcases max_choice x y with hx | hy
      · rw [hx]; exact List.mem_cons_self x (y :: ys)
      · rw [hy]; exact List.mem_cons_of_mem x (List.mem_cons_self y ys)
    · exact List.mem_cons_of_mem x (List.mem_cons_of_mem y hm)

theorem listMaxQ_mem {l : List ℚ} (h : l ≠ []) : listMaxQ l ∈ l := by
  cases l with
  | nil => exact absurd rfl h
  | cons x xs => exact foldl_max_mem x xs

/-! ## Lemmas about `max_by` over `(dep, time)` pairs -/

theorem maxByTime_foldl_mem (x : String × ℚ) (xs : List (String × ℚ)) :
    xs.foldl (fun acc y => if acc.2 ≤ y.2 then y else acc) x ∈ x :: xs := by
  induction xs generalizing x with
  | nil => exact List.mem_cons_self x []
  | cons y ys ih =>
    simp only [List.foldl_cons]
    rcases List.mem_cons.mp (ih (if x.2 ≤ y.2 then y else x)) with heq | hm
    · rw [heq]
      by_cases hc : x.2 ≤ y.2
      · rw [if_pos hc]; exact List.mem_cons_of_mem x (List.mem_cons_self y ys)
      · rw [if_neg hc]; exact List.mem_cons_self x (y :: ys)
    · exact List.mem_cons_of_mem x (List.mem_cons_of_mem y hm)

theorem maxByTime_mem {l : List (String × ℚ)} (h : l ≠ []) : maxByTime l ∈ l := by
  cases l with
  | nil => exact absurd rfl h
  | cons x xs => exact maxByTime_foldl_mem x xs

theorem maxByTime_foldl_snd (x : String × ℚ) (xs : List (String × ℚ)) :
    (xs.foldl (fun acc y => if acc.2 ≤ y.2 then y else acc) x).2 =
      (xs.map Prod.snd).foldl max x.2 := by
  induction xs generalizing x with
  | nil => rfl
  | cons y ys ih =>
    have harm : (if x.2 ≤ y.2 then y else x).2 = max x.2 y.2 := by
      by_cases hc : x.2 ≤ y.2
      · simp [hc, max_eq_right hc]
      · simp [hc, max_eq_left (le_of_not_le hc)]
    simp only [List.foldl_cons, List.map_cons, ih, harm]

theorem maxByTime_snd {l : List (String × ℚ)} (h : l ≠ []) :
    (maxByTime l).2 = listMaxQ (l.map Prod.snd) := by
  cases l with
  | nil => exact absurd rfl h
  | cons x xs => exact maxByTime_foldl_snd x xs

/-! ## Stability of the finish-time recursion under extra fuel -/

theorem finishTime_of_missing {p : GitLabPipeline} {name : String}
    (h : p.jobAt name = none) : ∀ fuel, finishTime p fuel name = 0
  | 0 => rfl
  | fuel + 1 => by simp [finishTime, h]

theorem rankOkAt_elim {p : GitLabPipeline} {r : String → ℕ} {name : String}
    {j : GitLabJob} (hra : rankOkAt p r name) (hj : p.jobAt name = some j) :
    ∀ d ∈ getDependencies p j, (p.jobAt d).isSome = true → r d < r name := by
  unfold rankOkAt at hra
  rw [hj] at hra
  exact hra

theorem finishTime_stable (p : GitLabPipeline) (r : String → ℕ)
    (hr : RankOk p r) :
    ∀ N name fuel₁ fuel₂, r name ≤ N → r name < fuel₁ → r name < fuel₂ →
      finishTime p fuel₁ name = finishTime p fuel₂ name := by
  intro N
  induction N with
  | zero =>
    intro name fuel₁ fuel₂ hN h1 h2
    obtain ⟨f₁, rfl⟩ : ∃ f, fuel₁ = f + 1 := ⟨fuel₁ - 1, by omega⟩
    obtain ⟨f₂, rfl⟩ : ∃ f, fuel₂ = f + 1 := ⟨fuel₂ - 1, by omega⟩
    cases hj : p.jobAt name with
    | none => rw [finishTime_of_missing hj, finishTime_of_missing hj]
    | some j =>
      have hd := rankOkAt_elim (hr name) hj
      cases hdeps : getDependencies p j with
      | nil => simp [finishTime, hj, hdeps]
      | cons d ds =>
        simp only [finishTime, hj, hdeps]
        have hmap : (d :: ds).map (fun x => finishTime p f₁ x) =
            (d :: ds).map (fun x => finishTime p f₂ x) := by
          apply List.map_congr_left
          intro x hx
          cases hxj : p.jobAt x with
          | none => rw [finishTime_of_missing hxj, finishTime_of_missing hxj]
          | some k =>
            have : r x < r name := hd x (hdeps ▸ hx) (by simp [hxj])
            omega
        rw [hmap]
  | succ n ih =>
    intro name fuel₁ fuel₂ hN h1 h2
    obtain ⟨f₁, rfl⟩ : ∃ f, fuel₁ = f + 1 := ⟨fuel₁ - 1, by omega⟩
    obtain ⟨f₂, rfl⟩ : ∃ f, fuel₂ = f + 1 := ⟨fuel₂ - 1, by omega⟩
    cases hj : p.jobAt name with
    | none => rw [finishTime_of_missing hj, finishTime_of_missing hj]
    | some j =>
      have hd := rankOkAt_elim (hr name) hj
      cases hdeps : getDependencies p j with
      | nil => simp [finishTime, hj, hdeps]
      | cons d ds =>
        simp only [finishTime, hj, hdeps]
        have hmap : (d :: ds).map (fun x => finishTime p f₁ x) =
            (d :: ds).map (fun x => finishTime p f₂ x) := by
          apply List.map_congr_left
          intro x hx
          cases hxj : p.jobAt x with
          | none => rw [finishTime_of_missing hxj, finishTime_of_missing hxj]
          | some k =>
            have hlt : r x < r name := hd x (hdeps ▸ hx) (by simp [hxj])
            exact ih x f₁ f₂ (by omega) (by omega) (by omega)
        rw [hmap]

/-! ## Finish-time equations -/

theorem finishTime_eq_of_no_deps (p : GitLabPipeline) {name : String}
    {j : GitLabJob} (fuel : ℕ) (hfl : 0 < fuel) (hj : p.jobAt name = some j)
    (hdeps : getDependencies p j = []) : finishTime p fuel name = j.duration := by
  obtain ⟨f, rfl⟩ : ∃ f, fuel = f + 1 := ⟨fuel - 1, by omega⟩
  simp [finishTime, hj, hdeps]

theorem finishTime_eq_of_deps (p : GitLabPipeline) (r : String → ℕ)
    (hr : RankOk p r) (fuel : ℕ)
    (hfuel : ∀ n, (p.jobAt n).isSome = true → r n < fuel)
    {name : String} {j : GitLabJob} (hj : p.jobAt name = some j)
    {d : String} {ds : List String} (hdeps : getDependencies p j = d :: ds) :
    finishTime p fuel name =
      listMaxQ ((d :: ds).map (fun x => finishTime p fuel x)) + j.duration := by
  have hrn : r name < fuel := hfuel name (by simp [hj])
  obtain ⟨f, rfl⟩ : ∃ f, fuel = f + 1 := ⟨fuel - 1, by omega⟩
  have hstep : finishTime p (f + 1) name =
      listMaxQ ((d :: ds).map (fun x => finishTime p f x)) + j.duration := by
    simp only [finishTime, hj, hdeps]
  have hmap : (d :: ds).map (fun x => finishTime p f x) =
      (d :: ds).map (fun x => finishTime p (f + 1) x) := by
    apply List.map_congr_left
    intro x hx
    cases hxj : p.jobAt x with
    | none => rw [finishTime_of_missing hxj, finishTime_of_missing hxj]
    | some k =>
      have hlt := rankOkAt_elim (hr name) hj x (hdeps ▸ hx) (by simp [hxj])
      exact finishTime_stable p r hr (r x) x f (f + 1) le_rfl (by omega) (by omega)
  rw [hstep, hmap]

theorem getDependencies_mem_iff (p : GitLabPipeline) (j : GitLabJob) (d : String) :
    d ∈ getDependencies p j ↔
      (match j.needs with
       | some ns => ns ≠ [] ∧ d ∈ ns
       | none => d ∈ jobMapKeys p ∧ ∃ other, p.jobAt d = some other ∧
           (stageIndexGet p.stages other.stage).getD 0 <
             (stageIndexGet p.stages j.stage).getD 0) := by
  cases hn : j.needs with
  | some ns =>
    cases ns with
    | nil => simp [getDependencies, hn]
    | cons a as => simp [getDependencies, hn]
  | none =>
    simp only [getDependencies, hn]
    rw [List.mem_filter]
    constructor
    · rintro ⟨hmem, hpred⟩
      refine ⟨hmem, ?_⟩
      cases ho : p.jobAt d with
      | none => rw [ho] at hpred; cases hpred
      | some other =>
        rw [ho] at hpred
        exact ⟨other, rfl, of_decide_eq_true hpred⟩
    · rintro ⟨hmem, other, ho, hlt⟩
      refine ⟨hmem, ?_⟩
      rw [ho]
      exact decide_eq_true hlt

/-- C1: for every pipeline with an acyclic dependency graph and every name,
the computed finish time obeys the memoized recursion of the specification —
a name absent from the job map has finish time 0; a job with no resolved
dependencies finishes after its own duration; otherwise it finishes at the
maximal dependency finish time plus its own duration — and dependency
resolution follows the three `needs` modes, absent `needs` meaning all jobs
with strictly smaller stage index (jobs with unknown stages having index
0). -/
theorem calculate_finish_time_meets_spec (p : GitLabPipeline) (r : String → ℕ)
    (hr : RankOk p r) (fuel : ℕ)
    (hfuel : ∀ n, (p.jobAt n).isSome = true → r n < fuel) :
    (∀ name, p.jobAt name = none → finishTime p fuel name = 0) ∧
    (∀ name j, p.jobAt name = some j → getDependencies p j = [] →
      finishTime p fuel name = j.duration) ∧
    (∀ name j, p.jobAt name = some j → getDependencies p j ≠ [] →
      finishTime p fuel name =
        listMaxQ ((getDependencies p j).map (fun x => finishTime p fuel x)) +
          j.duration) ∧
    (∀ j d, d ∈ getDependencies p j ↔
      (match j.needs with
       | some ns => ns ≠ [] ∧ d ∈ ns
       | none => d ∈ jobMapKeys p ∧ ∃ other, p.jobAt d = some other ∧
           (stageIndexGet p.stages other.stage).getD 0 <
             (stageIndexGet p.stages j.stage).getD 0)) := by
  refine ⟨?_, ?_, ?_, ?_⟩
  · intro name hnone
    exact finishTime_of_missing hnone fuel
  · intro name j hj hdeps
    have hrn : r name < fuel := hfuel name (by simp [hj])
    exact finishTime_eq_of_no_deps p fuel (by omega) hj hdeps
  · intro name j hj hdeps
    cases hd : getDependencies p j with
    | nil => exact absurd hd hdeps
    | cons d ds => exact finishTime_eq_of_deps p r hr fuel hfuel hj hd
  · exact getDependencies_mem_iff p

/-- Witness for C1: the implicit-stage scenario pipeline, rank `x ↦ 0`,
`y ↦ 1`, fuel 2, instantiated at job `y`. -/
theorem calculate_finish_time_meets_spec_witness :
    (∀ name ∈ jobMapKeys exStagePipeline, rankOkAt exStagePipeline exRank name) ∧
    (∀ name ∈ jobMapKeys exStagePipeline, exRank name < 2) ∧
    finishTime exStagePipeline 2 "y" =
      listMaxQ ((getDependencies exStagePipeline (exJob "y" "b" 7 none)).map
        (fun x => finishTime exStagePipeline 2 x)) + (exJob "y" "b" 7 none).duration := by
  refine ⟨by decide, by decide, ?_⟩
  exact (calculate_finish_time_meets_spec exStagePipeline exRank
    (rankOk_of_keys _ _ (by decide)) 2
    (fuelBound_of_keys _ _ _ (by decide))).2.2.1 "y" (exJob "y" "b" 7 none)
    (by decide) (by decide)

/-! ## C4: finish time dominates duration -/

theorem finishTime_nonneg (p : GitLabPipeline)
    (hd : ∀ j ∈ p.jobs, 0 ≤ j.duration) :
    ∀ fuel name, 0 ≤ finishTime p fuel name := by
  intro fuel
  induction fuel with
  | zero => intro name; exact le_refl 0
  | succ f ih =>
    intro name
    cases hj : p.jobAt name with
    | none => rw [finishTime_of_missing hj]
    | some j =>
      have hdur : 0 ≤ j.duration := hd j (jobMapGet_spec hj).1
      cases hdeps : getDependencies p j with
      | nil => simp only [finishTime, hj, hdeps]; exact hdur
      | cons d ds =>
        simp only [finishTime, hj, hdeps]
        have hmax : 0 ≤ listMaxQ ((d :: ds).map (fun x => finishTime p f x)) := by
          apply listMaxQ_nonneg
          intro a ha
          obtain ⟨x, _, rfl⟩ := List.mem_map.mp ha
          exact ih x
        linarith

/-- C4 (amended): with non-negative durations and an acyclic dependency
graph, every job of the job map has `finish(j) ≥ duration(j)`, and
`finish(j) = duration(j)` whenever its resolved dependency set is empty.
(The claimed converse — equality only with empty dependencies — is refuted
by `finish_equals_duration_counterexample`.) -/
theorem finish_time_dominates_duration (p : GitLabPipeline) (r : String → ℕ)
    (hr : RankOk p r) (fuel : ℕ)
    (hfuel : ∀ n, (p.jobAt n).isSome = true → r n < fuel)
    (hd : ∀ j ∈ p.jobs, 0 ≤ j.duration) :
    ∀ name j, p.jobAt name = some j →
      j.duration ≤ finishTime p fuel name ∧
      (getDependencies p j = [] → finishTime p fuel name = j.duration) := by
  intro name j hj
  have hrn : r name < fuel := hfuel name (by simp [hj])
  constructor
  · cases hdeps : getDependencies p j with
    | nil =>
      rw [finishTime_eq_of_no_deps p fuel (by omega) hj hdeps]
    | cons d ds =>
      rw [finishTime_eq_of_deps p r hr fuel hfuel hj hdeps]
      have hmax : 0 ≤ listMaxQ ((d :: ds).map (fun x => finishTime p fuel x)) := by
        apply listMaxQ_nonneg
        intro a ha
        obtain ⟨x, _, rfl⟩ := List.mem_map.mp ha
        exact finishTime_nonneg p hd fuel x
      linarith
  · intro hdeps
    exact finishTime_eq_of_no_deps p fuel (by omega) hj hdeps

/-- Witness for C4 at the implicit-stage scenario pipeline, job `y`. -/
theorem finish_time_dominates_duration_witness :
    (∀ j ∈ exStagePipeline.jobs, 0 ≤ j.duration) ∧
    (exJob "y" "b" 7 none).duration ≤ finishTime exStagePipeline 2 "y" := by
  refine ⟨by decide, ?_⟩
  exact ((finish_time_dominates_duration exStagePipeline exRank
    (rankOk_of_keys _ _ (by decide)) 2 (fuelBound_of_keys _ _ _ (by decide))
    (by decide)) "y" (exJob "y" "b" 7 none) (by decide)).1

/-- Counterexample to C4 as claimed: in `exDanglingPipeline` the job `a`
resolves to the non-empty dependency list `["ghost"]` whose only entry is
absent from the job map, so `finish(a) = 0 + duration(a) = duration(a)` —
equality holds with a non-empty dependency set, refuting the "if and only
if". -/
theorem finish_equals_duration_counterexample :
    exDanglingPipeline.jobAt "a" = some exDanglingJob ∧
    getDependencies exDanglingPipeline exDanglingJob ≠ [] ∧
    finishTime exDanglingPipeline (pipelineFuel exDanglingPipeline) "a" =
      exDanglingJob.duration := by
  refine ⟨by decide, by decide, by with_unfolding_all rfl⟩

/-! ## C8: token redaction -/

/-- C8: the diagnostic rendering of a `Token` is the literal `<redacted>`
for every underlying secret, so any two tokens render identically. -/
theorem token_debug_is_redacted :
    (∀ t : Token, t.debugFmt = "<redacted>") ∧
    (∀ t₁ t₂ : Token, t₁.debugFmt = t₂.debugFmt) :=
  ⟨fun _ => rfl, fun _ _ => rfl⟩

/-! ## C3: cluster labels -/

/-- Counterexample to C3 as claimed: a cluster whose only job name contains
`test` (and none of `prod`, `staging`, `dev`) is labelled
"Development Pipeline" by the code, not "Test Pipeline" — the code folds the
`test`/`qa` keywords into the same branch as `staging`/`dev`. -/
theorem pipeline_label_counterexample :
    (groupPipelineTypes [exTestPipeline] 0 "https://gitlab.example" "g/p").map
      PipelineType.label = ["Development Pipeline"] ∧
    ("Development Pipeline" : String) ≠ "Test Pipeline" := by
  refine ⟨by with_unfolding_all rfl, by decide⟩

/-- C3 (amended): the label is "Production Pipeline" iff some job name
contains `prod` case-insensitively; else "Development Pipeline" iff some
name contains `staging`, `dev`, `test` or `qa`; else "Unknown Pipeline".
There is no "Test Pipeline" label. -/
theorem pipeline_label_cases (names : List String) :
    (pipelineLabel names = "Production Pipeline" ↔
      ∃ n ∈ names, strContains (strToLower n) "prod" = true) ∧
    (pipelineLabel names = "Development Pipeline" ↔
      (¬ ∃ n ∈ names, strContains (strToLower n) "prod" = true) ∧
      ∃ n ∈ names, (strContains (strToLower n) "staging" = true ∨
        strContains (strToLower n) "dev" = true ∨
        strContains (strToLower n) "test" = true ∨
        strContains (strToLower n) "qa" = true)) ∧
    (pipelineLabel names = "Unknown Pipeline" ↔
      (¬ ∃ n ∈ names, strContains (strToLower n) "prod" = true) ∧
      ¬ ∃ n ∈ names, (strContains (strToLower n) "staging" = true ∨
        strContains (strToLower n) "dev" = true ∨
        strContains (strToLower n) "test" = true ∨
        strContains (strToLower n) "qa" = true)) := by
  unfold pipelineLabel
  by_cases hA : (names.any (fun j => strContains (strToLower j) "prod")) = true
  · rw [if_pos hA]
    rw [List.any_eq_true] at hA
    refine ⟨?_, ?_, ?_⟩
    · simp only [true_iff]
      exact hA
    · constructor
      · intro h; exact absurd h (by decide)
      · rintro ⟨hnp, _⟩; exact absurd hA hnp
    · constructor
      · intro h; exact absurd h (by decide)
      · rintro ⟨hnp, _⟩; exact absurd hA hnp
  · rw [if_neg hA]
    rw [List.any_eq_true] at hA
    by_cases hB : (names.any (fun j =>
        let lower := strToLower j
        strContains lower "staging" || strContains lower "dev" ||
          strContains lower "test" || strContains lower "qa")) = true
    · rw [if_pos hB]
      have hBe : ∃ n ∈ names, (strContains (strToLower n) "staging" = true ∨
          strContains (strToLower n) "dev" = true ∨
          strContains (strToLower n) "test" = true ∨
          strContains (strToLower n) "qa" = true) := by
        rw [List.any_eq_true] at hB
        obtain ⟨n, hn, hcond⟩ := hB
        refine ⟨n, hn, ?_⟩
        simpa [Bool.or_eq_true, or_assoc] using hcond
      refine ⟨?_, ?_, ?_⟩
      · constructor
        · intro h; exact absurd h (by decide)
        · intro hex; exact absurd hex hA
      · simp only [true_iff]
        exact ⟨hA, hBe⟩
      · constructor
        · intro h; exact absurd h (by decide)
        · rintro ⟨_, hnB⟩; exact absurd hBe hnB
    · rw [if_neg hB]
      have hBe : ¬ ∃ n ∈ names, (strContains (strToLower n) "staging" = true ∨
          strContains (strToLower n) "dev" = true ∨
          strContains (strToLower n) "test" = true ∨
          strContains (strToLower n) "qa" = true) := by
        intro hex
        apply hB
        rw [List.any_eq_true]
        obtain ⟨n, hn, hcond⟩ := hex
        refine ⟨n, hn, ?_⟩
        simpa [Bool.or_eq_true, or_assoc] using hcond
      refine ⟨?_, ?_, ?_⟩
      · constructor
        · intro h; exact absurd h (by decide)
        · intro hex; exact absurd hex hA
      · constructor
        · intro h; exact absurd h (by decide)
        · rintro ⟨_, hex⟩; exact absurd hex hBe
      · simp only [true_iff]
        exact ⟨hA, hBe⟩

/-- Witness for C3 (amended): a name containing `qa` yields the
development label. -/
theorem pipeline_label_cases_witness :
    pipelineLabel ["deploy-qa"] = "Development Pipeline" :=
  (pipeline_label_cases ["deploy-qa"]).2.1.mpr ⟨by decide, by decide⟩

/-! ## C6: critical predecessors -/

theorem maxByTime_pairs_spec (p : GitLabPipeline) (fuel : ℕ) (d : String)
    (ds : List String) :
    (maxByTime ((d :: ds).map (fun x => (x, finishTime p fuel x)))).1 ∈ d :: ds ∧
    finishTime p fuel
        (maxByTime ((d :: ds).map (fun x => (x, finishTime p fuel x)))).1 =
      (maxByTime ((d :: ds).map (fun x => (x, finishTime p fuel x)))).2 ∧
    (maxByTime ((d :: ds).map (fun x => (x, finishTime p fuel x)))).2 =
      listMaxQ ((d :: ds).map (fun x => finishTime p fuel x)) := by
  have hne : ((d :: ds).map (fun x => (x, finishTime p fuel x))) ≠ [] := by simp
  obtain ⟨x, hx, heq⟩ := List.mem_map.mp (maxByTime_mem hne)
  have hsnd := maxByTime_snd hne
  refine ⟨?_, ?_, ?_⟩
  · rw [← heq]; exact hx
  · rw [← heq]
  · rw [hsnd, List.map_map]
    rfl

theorem predOf_some_present {p : GitLabPipeline} {fuel : ℕ} {name m : String}
    (h : predOf p fuel name = some m) : ∃ jm, p.jobAt m = some jm := by
  cases hj : p.jobAt name with
  | none => simp [predOf, hj] at h
  | some j =>
    cases hdeps : getDependencies p j with
    | nil => simp [predOf, hj, hdeps] at h
    | cons d ds =>
      simp only [predOf, hj, hdeps] at h
      split at h
      · obtain rfl := Option.some.inj h
        have hspec := maxByTime_pairs_spec p fuel d ds
        have hpos : 0 < finishTime p fuel
            (maxByTime ((d :: ds).map (fun x => (x, finishTime p fuel x)))).1 := by
          rw [hspec.2.1]
          assumption
        cases hm : p.jobAt (maxByTime
            ((d :: ds).map (fun x => (x, finishTime p fuel x)))).1 with
        | none =>
          rw [finishTime_of_missing hm] at hpos
          exact absurd hpos (lt_irrefl 0)
        | some jm => exact ⟨jm, rfl⟩
      · cases h

theorem predChain_all_present (p : GitLabPipeline) (fuel : ℕ) :
    ∀ steps name,
      ((predChain p fuel steps name).filterMap (fun n =>
        (p.jobAt n).map (fun j => PredecessorJob.mk n j.duration))).map
          PredecessorJob.name = predChain p fuel steps name := by
  intro steps
  induction steps with
  | zero => intro name; rfl
  | succ k ih =>
    intro name
    rw [predChain]
    cases hpred : predOf p fuel name with
    | none => rfl
    | some m =>
      obtain ⟨jm, hjm⟩ := predOf_some_present hpred
      simp only [List.filterMap_cons, hjm, Option.map_some', List.map_cons]
      rw [ih m]

/-- C6 (amended): when a job has a non-empty resolved dependency set, the
arg-max dependency is recorded as its predecessor exactly when the maximal
dependency finish time is strictly positive (nothing is recorded otherwise),
and the per-job metrics report the predecessors of `j` as the recorded
predecessor chain strictly preceding `j`, reversed into source-toward-`j`
order. -/
theorem predecessor_spec (p : GitLabPipeline) (fuel : ℕ) :
    (∀ name j d ds, p.jobAt name = some j → getDependencies p j = d :: ds →
      (0 < listMaxQ ((d :: ds).map (fun x => finishTime p fuel x)) →
        ∃ m, predOf p fuel name = some m ∧ m ∈ d :: ds ∧
          finishTime p fuel m =
            listMaxQ ((d :: ds).map (fun x => finishTime p fuel x))) ∧
      (listMaxQ ((d :: ds).map (fun x => finishTime p fuel x)) ≤ 0 →
        predOf p fuel name = none)) ∧
    (∀ name steps, (buildPredecessorList p fuel steps name).map
        PredecessorJob.name = (predChain p fuel steps name).reverse) ∧
    (∀ m, m ∈ calculateJobMetrics p →
      m.predecessors =
        buildPredecessorList p (pipelineFuel p) (pipelineFuel p) m.name) := by
  refine ⟨?_, ?_, ?_⟩
  · intro name j d ds hj hdeps
    have hspec := maxByTime_pairs_spec p fuel d ds
    constructor
    · intro hpos
      refine ⟨(maxByTime ((d :: ds).map (fun x => (x, finishTime p fuel x)))).1,
        ?_, hspec.1, hspec.2.1.trans hspec.2.2⟩
      simp only [predOf, hj, hdeps]
      rw [if_pos]
      rw [hspec.2.2]
      exact hpos
    · intro hnonpos
      simp only [predOf, hj, hdeps]
      rw [if_neg]
      rw [hspec.2.2]
      exact not_lt.mpr hnonpos
  · intro name steps
    rw [buildPredecessorList, List.map_reverse, predChain_all_present p fuel steps name]
  · intro m hm
    unfold calculateJobMetrics at hm
    split at hm
    · cases hm
    · have hm2 : m ∈ List.insertionSort
          (fun a b : PipeJobMetrics =>
            b.avg_time_to_feedback_seconds ≤ a.avg_time_to_feedback_seconds)
          ((jobMapKeys p).filterMap (fun name =>
            (p.jobAt name).map (fun j =>
              PipeJobMetrics.mk name j.duration (finishTime p (pipelineFuel p) name)
                (buildPredecessorList p (pipelineFuel p) (pipelineFuel p) name)))) := hm
      have hm' := (List.perm_insertionSort
        (fun a b : PipeJobMetrics =>
          b.avg_time_to_feedback_seconds ≤ a.avg_time_to_feedback_seconds)
        _).mem_iff.mp hm2
      obtain ⟨name, hname, hsome⟩ := List.mem_filterMap.mp hm'
      cases hj : GitLabPipeline.jobAt p name with
      | none => rw [hj] at hsome; cases hsome
      | some j =>
        rw [hj] at hsome
        obtain rfl := Option.some.inj hsome
        rfl

/-- Witness for C6 at the implicit-stage scenario pipeline: job `y` has
dependency list `["x"]` with positive maximal finish time, so `x` is
recorded. -/
theorem predecessor_spec_witness :
    ∃ m, predOf exStagePipeline 2 "y" = some m ∧ m ∈ ["x"] ∧
      finishTime exStagePipeline 2 m =
        listMaxQ (["x"].map (fun x => finishTime exStagePipeline 2 x)) :=
  ((predecessor_spec exStagePipeline 2).1 "y" (exJob "y" "b" 7 none) "x" []
    (by decide) (by decide)).1 (by with_unfolding_all decide)

/-- Counterexample to C6 as claimed: job `a` of `exDanglingPipeline` has the
non-empty resolved dependency list `["ghost"]`, whose maximal finish time is
0 (the name is absent from the job map); the code records no predecessor for
`a`, while the claim says the arg-max dependency is recorded. -/
theorem predecessor_not_recorded_counterexample :
    exDanglingPipeline.jobAt "a" = some exDanglingJob ∧
    getDependencies exDanglingPipeline exDanglingJob = ["ghost"] ∧
    predOf exDanglingPipeline (pipelineFuel exDanglingPipeline) "a" = none := by
  refine ⟨by decide, by decide, by with_unfolding_all rfl⟩

/-! ## C2: the reliability pass -/

theorem recordsOf_eq_nil_iff {p : GitLabPipeline} {q : String} :
    recordsOf p q = [] ↔ q ∉ groupedNames p := by
  rw [recordsOf, groupedNames, List.mem_dedup, List.filter_eq_nil_iff]
  constructor
  · intro h hq
    obtain ⟨j, hj, rfl⟩ := List.mem_map.mp hq
    exact h j hj (by simp)
  · intro h j hj hbeq
    exact h (List.mem_map.mpr ⟨j, hj, beq_iff_eq.mp hbeq⟩)

theorem processName_executionCounts (b pr : String) (p : GitLabPipeline)
    (acc : RelAcc) (name q : String) :
    (processName b pr p acc name).executionCounts q =
      if q = name then acc.executionCounts q + (recordsOf p name).length
      else acc.executionCounts q := by
  have hgoal : bumpCount acc.executionCounts name (recordsOf p name).length q =
      if q = name then acc.executionCounts q + (recordsOf p name).length
      else acc.executionCounts q := by
    unfold bumpCount
    split_ifs with h
    · rw [h]
    · rfl
  simp only [processName]
  split
  · exact hgoal
  · split
    · split
      · exact hgoal
      · exact hgoal
    · exact hgoal

theorem processName_flakyRetries (b pr : String) (p : GitLabPipeline)
    (acc : RelAcc) (name q : String) :
    (processName b pr p acc name).flakyRetries q =
      if q = name ∧ isJobFlaky (recordsOf p name) = true
      then acc.flakyRetries q + ((recordsOf p name).filter GitLabJob.retried).length
      else acc.flakyRetries q := by
  simp only [processName]
  split
  · next hflaky =>
    show bumpCount acc.flakyRetries name
      (((recordsOf p name).filter GitLabJob.retried).map
        (fun j => jobIdToUrl b pr j.id)).length q = _
    rw [List.length_map]
    unfold bumpCount
    by_cases h : q = name
    · rw [if_pos h, if_pos ⟨h, hflaky⟩, h]
    · rw [if_neg h, if_neg (fun hc => h hc.1)]
  · next hflaky =>
    have hgoal : acc.flakyRetries q =
        if q = name ∧ isJobFlaky (recordsOf p name) = true
        then acc.flakyRetries q +
          ((recordsOf p name).filter GitLabJob.retried).length
        else acc.flakyRetries q := by
      rw [if_neg (fun hc => hflaky hc.2)]
    split
    · split
      · exact hgoal
      · exact hgoal
    · exact hgoal

theorem processName_failedExecutions (b pr : String) (p : GitLabPipeline)
    (acc : RelAcc) (name q : String) :
    (processName b pr p acc name).failedExecutions q =
      if q = name ∧ isJobFlaky (recordsOf p name) = false ∧
        isJobFailed (recordsOf p name) = true
      then acc.failedExecutions q + 1
      else acc.failedExecutions q := by
  simp only [processName]
  split
  · next hflaky =>
    have hcond : ¬ (q = name ∧ isJobFlaky (recordsOf p name) = false ∧
        isJobFailed (recordsOf p name) = true) := by
      rintro ⟨_, hf, _⟩
      rw [hflaky] at hf
      cases hf
    rw [if_neg hcond]
  · next hflaky =>
    split
    · next hfailed =>
      have hflaky' : isJobFlaky (recordsOf p name) = false :=
        Bool.eq_false_iff.mpr hflaky
      have key : bumpCount acc.failedExecutions name 1 q =
          if q = name ∧ isJobFlaky (recordsOf p name) = false ∧
            isJobFailed (recordsOf p name) = true
          then acc.failedExecutions q + 1 else acc.failedExecutions q := by
        unfold bumpCount
        by_cases h : q = name
        · rw [if_pos h, if_pos ⟨h, hflaky', hfailed⟩, h]
        · rw [if_neg h, if_neg (fun hc => h hc.1)]
      split
      · exact key
      · exact key
    · next hfailed =>
      rw [if_neg (fun hc => hfailed hc.2.2)]

theorem foldNames_not_mem (b pr : String) (p : GitLabPipeline)
    (l : List String) (acc : RelAcc) (q : String) (h : q ∉ l) :
    ((l.foldl (processName b pr p) acc).executionCounts q =
        acc.executionCounts q) ∧
    ((l.foldl (processName b pr p) acc).flakyRetries q = acc.flakyRetries q) ∧
    ((l.foldl (processName b pr p) acc).failedExecutions q =
        acc.failedExecutions q) := by
  induction l generalizing acc with
  | nil => exact ⟨rfl, rfl, rfl⟩
  | cons n rest ih =>
    have hqn : q ≠ n := fun hc => h (hc ▸ List.mem_cons_self n rest)
    have hqrest : q ∉ rest := fun hc => h (List.mem_cons_of_mem n hc)
    rw [List.foldl_cons]
    obtain ⟨h1, h2, h3⟩ := ih (processName b pr p acc n) hqrest
    refine ⟨?_, ?_, ?_⟩
    · rw [h1, processName_executionCounts, if_neg hqn]
    · rw [h2, processName_flakyRetries, if_neg (fun hc => hqn hc.1)]
    · rw [h3, processName_failedExecutions, if_neg (fun hc => hqn hc.1)]

theorem foldNames_mem (b pr : String) (p : GitLabPipeline)
    (l : List String) (acc : RelAcc) (q : String) (hnd : l.Nodup) (h : q ∈ l) :
    ((l.foldl (processName b pr p) acc).executionCounts q =
        acc.executionCounts q + (recordsOf p q).length) ∧
    ((l.foldl (processName b pr p) acc).flakyRetries q = acc.flakyRetries q +
      (if isJobFlaky (recordsOf p q) = true
        then ((recordsOf p q).filter GitLabJob.retried).length else 0)) ∧
    ((l.foldl (processName b pr p) acc).failedExecutions q =
        acc.failedExecutions q +
      (if isJobFlaky (recordsOf p q) = false ∧ isJobFailed (recordsOf p q) = true
        then 1 else 0)) := by
  induction l generalizing acc with
  | nil => cases h
  | cons n rest ih =>
    rw [List.foldl_cons]
    rcases List.mem_cons.mp h with rfl | hmem
    · have hqrest : q ∉ rest := (List.nodup_cons.mp hnd).1
      obtain ⟨h1, h2, h3⟩ := foldNames_not_mem b pr p rest
        (processName b pr p acc q) q hqrest
      refine ⟨?_, ?_, ?_⟩
      · rw [h1, processName_executionCounts, if_pos rfl]
      · rw [h2, processName_flakyRetries]
        by_cases hf : isJobFlaky (recordsOf p q) = true
        · rw [if_pos ⟨rfl, hf⟩, if_pos hf]
        · rw [if_neg (fun hc => hf hc.2), if_neg hf, Nat.add_zero]
      · rw [h3, processName_failedExecutions]
        by_cases hf : isJobFlaky (recordsOf p q) = false ∧
            isJobFailed (recordsOf p q) = true
        · rw [if_pos ⟨rfl, hf.1, hf.2⟩, if_pos hf]
        · rw [if_neg (fun hc => hf ⟨hc.2.1, hc.2.2⟩), if_neg hf, Nat.add_zero]
    · have hqn : q ≠ n := by
        rintro rfl
        exact (List.nodup_cons.mp hnd).1 hmem
      obtain ⟨h1, h2, h3⟩ := ih (processName b pr p acc n)
        (List.nodup_cons.mp hnd).2 hmem
      refine ⟨?_, ?_, ?_⟩
      · rw [h1, processName_executionCounts, if_neg hqn]
      · rw [h2, processName_flakyRetries, if_neg (fun hc => hqn hc.1)]
      · rw [h3, processName_failedExecutions, if_neg (fun hc => hqn hc.1)]

theorem processPipeline_fields (b pr : String) (acc : RelAcc)
    (p : GitLabPipeline) (q : String) :
    ((processPipeline b pr acc p).executionCounts q =
        acc.executionCounts q + (recordsOf p q).length) ∧
    ((processPipeline b pr acc p).flakyRetries q = acc.flakyRetries q +
      (if isJobFlaky (recordsOf p q) = true
        then ((recordsOf p q).filter GitLabJob.retried).length else 0)) ∧
    ((processPipeline b pr acc p).failedExecutions q = acc.failedExecutions q +
      (if recordsOf p q ≠ [] ∧ isJobFlaky (recordsOf p q) = false ∧
          isJobFailed (recordsOf p q) = true then 1 else 0)) := by
  unfold processPipeline
  by_cases hmem : q ∈ groupedNames p
  · have hne : recordsOf p q ≠ [] := fun hc => (recordsOf_eq_nil_iff.mp hc) hmem
    obtain ⟨h1, h2, h3⟩ := foldNames_mem b pr p (groupedNames p) acc q
      (List.nodup_dedup _) hmem
    refine ⟨h1, h2, ?_⟩
    rw [h3]
    by_cases hf : isJobFlaky (recordsOf p q) = false ∧ isJobFailed (recordsOf p q) = true
    · rw [if_pos hf, if_pos ⟨hne, hf.1, hf.2⟩]
    · rw [if_neg hf, if_neg (fun hc => hf ⟨hc.2.1, hc.2.2⟩)]
  · have hnil : recordsOf p q = [] := recordsOf_eq_nil_iff.mpr hmem
    obtain ⟨h1, h2, h3⟩ := foldNames_not_mem b pr p (groupedNames p) acc q hmem
    refine ⟨?_, ?_, ?_⟩
    · rw [h1, hnil]
      rfl
    · rw [h2, hnil]
      rw [if_neg (by decide : ¬ isJobFlaky [] = true), Nat.add_zero]
    · rw [h3, hnil]
      rw [if_neg (fun hc => hc.1 rfl), Nat.add_zero]

theorem reliabilityAcc_fields (ps : List GitLabPipeline) (b pr q : String) :
    ((reliabilityAcc ps b pr).executionCounts q =
        (ps.map (fun p => (recordsOf p q).length)).sum) ∧
    ((reliabilityAcc ps b pr).flakyRetries q =
      (ps.map (fun p => if isJobFlaky (recordsOf p q) = true
        then ((recordsOf p q).filter GitLabJob.retried).length else 0)).sum) ∧
    ((reliabilityAcc ps b pr).failedExecutions q =
      (ps.map (fun p => if recordsOf p q ≠ [] ∧
          isJobFlaky (recordsOf p q) = false ∧ isJobFailed (recordsOf p q) = true
        then 1 else 0)).sum) := by
  have main : ∀ (l : List GitLabPipeline) (acc : RelAcc),
      ((l.foldl (processPipeline b pr) acc).executionCounts q =
          acc.executionCounts q + (l.map (fun p => (recordsOf p q).length)).sum) ∧
      ((l.foldl (processPipeline b pr) acc).flakyRetries q = acc.flakyRetries q +
        (l.map (fun p => if isJobFlaky (recordsOf p q) = true
          then ((recordsOf p q).filter GitLabJob.retried).length else 0)).sum) ∧
      ((l.foldl (processPipeline b pr) acc).failedExecutions q =
          acc.failedExecutions q +
        (l.map (fun p => if recordsOf p q ≠ [] ∧
            isJobFlaky (recordsOf p q) = false ∧ isJobFailed (recordsOf p q) = true
          then 1 else 0)).sum) := by
    intro l
    induction l with
    | nil => intro acc; exact ⟨rfl, rfl, rfl⟩
    | cons p rest ih =>
      intro acc
      rw [List.foldl_cons]
      obtain ⟨h1, h2, h3⟩ := ih (processPipeline b pr acc p)
      obtain ⟨g1, g2, g3⟩ := processPipeline_fields b pr acc p q
      refine ⟨?_, ?_, ?_⟩
      · rw [h1, g1, List.map_cons, List.sum_cons, Nat.add_assoc]
      · rw [h2, g2, List.map_cons, List.sum_cons, Nat.add_assoc]
      · rw [h3, g3, List.map_cons, List.sum_cons, Nat.add_assoc]
  obtain ⟨h1, h2, h3⟩ := main ps RelAcc.init
  simp only [RelAcc.init, Nat.zero_add] at h1 h2 h3
  exact ⟨h1, h2, h3⟩

theorem isJobFlaky_iff (recs : List GitLabJob) :
    isJobFlaky recs = true ↔
      (∃ j ∈ recs, j.retried = true) ∧
      ∃ j, recs.find? (fun j => !j.retried) = some j ∧ j.status = "SUCCESS" := by
  unfold isJobFlaky
  rw [Bool.and_eq_true, List.any_eq_true]
  apply and_congr Iff.rfl
  cases hfind : recs.find? (fun j => !j.retried) with
  | none => simp
  | some j => simp

theorem isJobFailed_iff (recs : List GitLabJob) :
    isJobFailed recs = true ↔
      recs.find? (fun j => !j.retried) = none ∨
      ∃ j, recs.find? (fun j => !j.retried) = some j ∧ j.status ≠ "SUCCESS" := by
  unfold isJobFailed
  cases hfind : recs.find? (fun j => !j.retried) with
  | none => simp
  | some j => simp [bne_iff_ne]

/-- C2: for every cluster and observed job name, the per-name reliability
metrics hold: total executions is the total record count across the
cluster's pipelines; flaky retries sum the retried-record counts of
pipelines where the name is flaky (some record retried and the non-retried
record succeeded); failed executions add 1 for each pipeline where the name
occurs, is not flaky, and either has no non-retried record or its
non-retried record did not succeed; the two rates are count/total × 100,
and a rate over zero executions is 0. -/
theorem job_reliability_meets_spec (ps : List GitLabPipeline) (b pr q : String) :
    (∀ m, calculateJobReliability ps b pr q = some m →
      m.total_executions = (ps.map (fun p => (recordsOf p q).length)).sum ∧
      m.flaky_retries = (ps.map (fun p =>
        if isJobFlaky (recordsOf p q) = true
        then ((recordsOf p q).filter GitLabJob.retried).length else 0)).sum ∧
      m.failed_executions = (ps.map (fun p =>
        if recordsOf p q ≠ [] ∧ isJobFlaky (recordsOf p q) = false ∧
          isJobFailed (recordsOf p q) = true then 1 else 0)).sum ∧
      m.flakiness_rate =
        (m.flaky_retries : ℚ) / (m.total_executions : ℚ) * 100 ∧
      m.failure_rate =
        (m.failed_executions : ℚ) / (m.total_executions : ℚ) * 100) ∧
    ((∃ p ∈ ps, recordsOf p q ≠ []) →
      ∃ m, calculateJobReliability ps b pr q = some m) ∧
    (∀ recs : List GitLabJob,
      (isJobFlaky recs = true ↔ (∃ j ∈ recs, j.retried = true) ∧
        ∃ j, recs.find? (fun j => !j.retried) = some j ∧ j.status = "SUCCESS") ∧
      (isJobFailed recs = true ↔ recs.find? (fun j => !j.retried) = none ∨
        ∃ j, recs.find? (fun j => !j.retried) = some j ∧ j.status ≠ "SUCCESS")) ∧
    (∀ c, calculateRate c 0 = 0) := by
  obtain ⟨hec, hfr, hfe⟩ := reliabilityAcc_fields ps b pr q
  refine ⟨?_, ?_, fun recs => ⟨isJobFlaky_iff recs, isJobFailed_iff recs⟩, ?_⟩
  · intro m hm
    unfold calculateJobReliability at hm
    split at hm
    · next hpos =>
      obtain rfl := Option.some.inj hm
      refine ⟨hec, hfr, hfe, ?_, ?_⟩
      · show calculateRate _ _ = _
        unfold calculateRate
        rw [if_pos hpos]
        rfl
      · show calculateRate _ _ = _
        unfold calculateRate
        rw [if_pos hpos]
        rfl
    · cases hm
  · rintro ⟨p, hp, hne⟩
    unfold calculateJobReliability
    have hpos : 0 < (reliabilityAcc ps b pr).executionCounts q := by
      rw [hec]
      have hlen : 0 < (recordsOf p q).length := List.length_pos.mpr hne
      have hmem : (recordsOf p q).length ∈
          ps.map (fun p => (recordsOf p q).length) :=
        List.mem_map.mpr ⟨p, hp, rfl⟩
      have := List.single_le_sum
        (l := ps.map (fun p => (recordsOf p q).length)) (fun _ _ => Nat.zero_le _)
        _ hmem
      omega
    rw [if_pos hpos]
    exact ⟨_, rfl⟩
  · intro c
    unfold calculateRate
    rw [if_neg (lt_irrefl 0)]

/-- Witness for C2 at the flakiness-detection scenario pipeline, name `t`. -/
theorem job_reliability_meets_spec_witness :
    ∃ m, calculateJobReliability [exFlakyPipeline] "https://gitlab.example" "g/p"
      "t" = some m :=
  (job_reliability_meets_spec [exFlakyPipeline] "https://gitlab.example" "g/p"
    "t").2.1 ⟨exFlakyPipeline, by decide, by decide⟩

/-! ## Lemmas about the cluster map -/

theorem assocGet_cons_self {κ α : Type} [BEq κ] [LawfulBEq κ] (k : κ) (v : α)
    (l : List (κ × α)) : assocGet ((k, v) :: l) k = some v := by
  simp [assocGet]

theorem assocGet_cons_ne {κ α : Type} [BEq κ] [LawfulBEq κ] {k₀ k : κ}
    (v : α) (l : List (κ × α)) (h : k₀ ≠ k) :
    assocGet ((k₀, v) :: l) k = assocGet l k := by
  simp [assocGet, h]

theorem assocGet_addToClusters (cs : List (List String × List GitLabPipeline))
    (key : List String) (p : GitLabPipeline) (k : List String) :
    assocGet (addToClusters cs key p) k =
      if k = key then some (((assocGet cs k).getD []) ++ [p])
      else assocGet cs k := by
  induction cs with
  | nil =>
    by_cases h : k = key
    · subst h
      show assocGet [(k, [p])] k = _
      rw [if_pos rfl, assocGet_cons_self]
      rfl
    · show assocGet [(key, [p])] k = _
      rw [if_neg h, assocGet_cons_ne _ _ (fun hc => h hc.symm)]
  | cons e rest ih =>
    obtain ⟨k₀, cl₀⟩ := e
    rw [addToClusters]
    by_cases h0 : k₀ = key
    · rw [if_pos h0]
      subst h0
      by_cases hk : k = k₀
      · subst hk
        rw [if_pos rfl, assocGet_cons_self, assocGet_cons_self]
        rfl
      · rw [if_neg hk, assocGet_cons_ne _ _ (fun hc => hk hc.symm),
          assocGet_cons_ne _ _ (fun hc => hk hc.symm)]
    · rw [if_neg h0]
      by_cases hk : k = k₀
      · rw [← hk] at h0 ⊢
        rw [if_neg h0, assocGet_cons_self, assocGet_cons_self]
      · rw [assocGet_cons_ne _ _ (fun hc => hk hc.symm), ih,
          assocGet_cons_ne _ _ (fun hc => hk hc.symm)]

theorem assocGet_clustersOf (ps : List GitLabPipeline) (k : List String) :
    assocGet (clustersOf ps) k =
      if (ps.filter (fun x => extractJobSignature x == k)).isEmpty then none
      else some (ps.filter (fun x => extractJobSignature x == k)) := by
  have main : ∀ (l : List GitLabPipeline)
      (acc : List (List String × List GitLabPipeline)),
      assocGet (l.foldl (fun cs p => addToClusters cs (extractJobSignature p) p) acc) k =
        if (l.filter (fun x => extractJobSignature x == k)).isEmpty
        then assocGet acc k
        else some ((assocGet acc k).getD [] ++
          l.filter (fun x => extractJobSignature x == k)) := by
    intro l
    induction l with
    | nil => intro acc; rfl
    | cons p rest ih =>
      intro acc
      rw [List.foldl_cons, ih, List.filter_cons]
      by_cases hsig : extractJobSignature p = k
      · have hbeq : (extractJobSignature p == k) = true := beq_iff_eq.mpr hsig
        rw [hbeq, if_pos rfl]
        have hget : assocGet (addToClusters acc (extractJobSignature p) p) k =
            some ((assocGet acc k).getD [] ++ [p]) := by
          rw [assocGet_addToClusters, if_pos hsig.symm]
        rw [hget, List.isEmpty_cons, if_neg Bool.false_ne_true]
        by_cases hrest : (rest.filter (fun x => extractJobSignature x == k)).isEmpty
        · rw [if_pos hrest]
          rw [List.isEmpty_iff] at hrest
          rw [hrest]
        · rw [if_neg hrest, Option.getD_some, List.append_assoc]
          rfl
      · have hbeq : (extractJobSignature p == k) = false :=
          beq_eq_false_iff_ne.mpr hsig
        rw [hbeq, if_neg Bool.false_ne_true]
        have hacc : assocGet (addToClusters acc (extractJobSignature p) p) k =
            assocGet acc k := by
          rw [assocGet_addToClusters, if_neg (fun hc => hsig hc.symm)]
        rw [hacc]
  rw [clustersOf, main ps []]
  by_cases hemp : (ps.filter (fun x => extractJobSignature x == k)).isEmpty
  · rw [if_pos hemp, if_pos hemp]
    rfl
  · rw [if_neg hemp, if_neg hemp]
    rfl

theorem addToClusters_keys_subset {cs : List (List String × List GitLabPipeline)}
    {key : List String} {p : GitLabPipeline} {x : List String}
    (h : x ∈ (addToClusters cs key p).map Prod.fst) :
    x ∈ cs.map Prod.fst ∨ x = key := by
  induction cs with
  | nil =>
    simp only [addToClusters, List.map_cons, List.map_nil, List.mem_singleton] at h
    exact Or.inr h
  | cons e rest ih =>
    obtain ⟨k₀, cl₀⟩ := e
    rw [addToClusters] at h
    by_cases h0 : k₀ = key
    · rw [if_pos h0] at h
      simp only [List.map_cons, List.mem_cons] at h ⊢
      rcases h with rfl | h
      · exact Or.inl (Or.inl rfl)
      · exact Or.inl (Or.inr h)
    · rw [if_neg h0] at h
      simp only [List.map_cons, List.mem_cons] at h ⊢
      rcases h with rfl | h
      · exact Or.inl (Or.inl rfl)
      · rcases ih h with h' | h'
        · exact Or.inl (Or.inr h')
        · exact Or.inr h'

theorem addToClusters_keys_nodup {cs : List (List String × List GitLabPipeline)}
    {key : List String} {p : GitLabPipeline}
    (h : (cs.map Prod.fst).Nodup) :
    ((addToClusters cs key p).map Prod.fst).Nodup := by
  induction cs with
  | nil => simp [addToClusters]
  | cons e rest ih =>
    obtain ⟨k₀, cl₀⟩ := e
    rw [List.map_cons, List.nodup_cons] at h
    rw [addToClusters]
    by_cases h0 : k₀ = key
    · rw [if_pos h0, List.map_cons, List.nodup_cons]
      exact ⟨h.1, h.2⟩
    · rw [if_neg h0, List.map_cons, List.nodup_cons]
      refine ⟨?_, ih h.2⟩
      intro hc
      rcases addToClusters_keys_subset hc with h' | h'
      · exact h.1 h'
      · exact h0 h'

theorem clustersOf_keys_nodup (ps : List GitLabPipeline) :
    ((clustersOf ps).map Prod.fst).Nodup := by
  have main : ∀ (l : List GitLabPipeline)
      (acc : List (List String × List GitLabPipeline)),
      (acc.map Prod.fst).Nodup →
      ((l.foldl (fun cs p => addToClusters cs (extractJobSignature p) p) acc).map
        Prod.fst).Nodup := by
    intro l
    induction l with
    | nil => intro acc h; exact h
    | cons p rest ih =>
      intro acc h
      rw [List.foldl_cons]
      exact ih _ (addToClusters_keys_nodup h)
  exact main ps [] (by simp)

theorem mem_iff_assocGet {κ α : Type} [BEq κ] [LawfulBEq κ]
    {l : List (κ × α)} (hnd : (l.map Prod.fst).Nodup) (k : κ) (v : α) :
    (k, v) ∈ l ↔ assocGet l k = some v := by
  induction l with
  | nil => simp [assocGet]
  | cons e rest ih =>
    obtain ⟨k₀, v₀⟩ := e
    rw [List.map_cons, List.nodup_cons] at hnd
    by_cases hk : k₀ = k
    · subst hk
      rw [assocGet_cons_self]
      constructor
      · intro hm
        rcases List.mem_cons.mp hm with heq | hm'
        · obtain ⟨_, rfl⟩ := Prod.mk.injEq .. ▸ heq
          · rfl
        · exact absurd (List.mem_map.mpr ⟨(k₀, v), hm', rfl⟩) hnd.1
      · intro he
        obtain rfl := Option.some.inj he
        exact List.mem_cons_self _ _
    · rw [assocGet_cons_ne _ _ hk, ← ih hnd.2]
      constructor
      · intro hm
        rcases List.mem_cons.mp hm with heq | hm'
        · exact absurd (congrArg Prod.fst heq).symm hk
        · exact hm'
      · exact List.mem_cons_of_mem _

theorem mem_signature_iff (p : GitLabPipeline) (n : String) :
    n ∈ extractJobSignature p ↔ n ∈ p.jobs.map GitLabJob.name := by
  unfold extractJobSignature
  rw [(List.perm_insertionSort _ _).mem_iff, List.mem_dedup]

theorem signature_nodup (p : GitLabPipeline) : (extractJobSignature p).Nodup :=
  ((List.perm_insertionSort _ _).nodup_iff).mpr (List.nodup_dedup _)

theorem signature_sorted (p : GitLabPipeline) :
    (extractJobSignature p).Sorted (fun a b : String => a ≤ b) :=
  List.sorted_insertionSort _ _

theorem signature_eq_iff (p q : GitLabPipeline) :
    extractJobSignature p = extractJobSignature q ↔
      (∀ n, n ∈ p.jobs.map GitLabJob.name ↔ n ∈ q.jobs.map GitLabJob.name) := by
  constructor
  · intro h n
    rw [← mem_signature_iff, ← mem_signature_iff, h]
  · intro h
    have hperm : List.Perm (extractJobSignature p) (extractJobSignature q) := by
      rw [List.perm_ext_iff_of_nodup (signature_nodup p) (signature_nodup q)]
      intro n
      rw [mem_signature_iff, mem_signature_iff]
      exact h n
    exact List.eq_of_perm_of_sorted hperm (signature_sorted p) (signature_sorted q)

/-- C10: two pipelines of the corpus land in the same cluster exactly when
their job-name signatures coincide, and signatures coincide exactly when the
job-name sets are equal — so clustering ignores job order and duplicate
names (retries). -/
theorem clustering_signature_sets (ps : List GitLabPipeline)
    (p q : GitLabPipeline) (hp : p ∈ ps) (hq : q ∈ ps) :
    ((∃ e ∈ clustersOf ps, p ∈ e.2 ∧ q ∈ e.2) ↔
      extractJobSignature p = extractJobSignature q) ∧
    (extractJobSignature p = extractJobSignature q ↔
      ∀ n, n ∈ p.jobs.map GitLabJob.name ↔ n ∈ q.jobs.map GitLabJob.name) := by
  refine ⟨?_, signature_eq_iff p q⟩
  constructor
  · rintro ⟨⟨k, cl⟩, he, hpe, hqe⟩
    have hlookup := (mem_iff_assocGet (clustersOf_keys_nodup ps) k cl).mp he
    rw [assocGet_clustersOf] at hlookup
    by_cases hemp : (ps.filter (fun x => extractJobSignature x == k)).isEmpty
    · rw [if_pos hemp] at hlookup
      cases hlookup
    · rw [if_neg hemp] at hlookup
      obtain rfl := Option.some.inj hlookup
      have hp' := (List.mem_filter.mp hpe).2
      have hq' := (List.mem_filter.mp hqe).2
      exact (beq_iff_eq.mp hp').trans (beq_iff_eq.mp hq').symm
  · intro hsig
    have hfp : p ∈ ps.filter (fun x =>
        extractJobSignature x == extractJobSignature p) :=
      List.mem_filter.mpr ⟨hp, beq_iff_eq.mpr rfl⟩
    have hfq : q ∈ ps.filter (fun x =>
        extractJobSignature x == extractJobSignature p) :=
      List.mem_filter.mpr ⟨hq, beq_iff_eq.mpr hsig.symm⟩
    have hne : ¬ (ps.filter (fun x =>
        extractJobSignature x == extractJobSignature p)).isEmpty = true := by
      rw [List.isEmpty_iff]
      intro hc
      rw [hc] at hfp
      cases hfp
    have hlookup : assocGet (clustersOf ps) (extractJobSignature p) =
        some (ps.filter (fun x =>
          extractJobSignature x == extractJobSignature p)) := by
      rw [assocGet_clustersOf, if_neg hne]
    exact ⟨(extractJobSignature p, ps.filter (fun x =>
        extractJobSignature x == extractJobSignature p)),
      (mem_iff_assocGet (clustersOf_keys_nodup ps) _ _).mpr hlookup, hfp, hfq⟩

/-- Witness for C10: two pipelines with equal job-name sets but different
record order and duplicity land in one cluster. -/
theorem clustering_signature_sets_witness :
    ∃ e ∈ clustersOf [exOrderPipeline1, exOrderPipeline2],
      exOrderPipeline1 ∈ e.2 ∧ exOrderPipeline2 ∈ e.2 :=
  ((clustering_signature_sets [exOrderPipeline1, exOrderPipeline2]
    exOrderPipeline1 exOrderPipeline2 (by decide) (by decide)).1).mpr
    (by with_unfolding_all rfl)

/-! ## C5: cluster threshold filter and ordering -/

/-- C5: an emitted cluster's percentage is at least `min_type_percentage`;
the output is sorted by `total_pipelines` descending; every cluster whose
share `size / max(total, 1) × 100` reaches the threshold is emitted and
carries exactly that percentage and its size as `total_pipelines`; every
output entry comes from a cluster; and on the 8/2 scenario, threshold 25
emits only the size-8 cluster while threshold 10 emits both, size-8
first. -/
theorem group_pipeline_types_spec (ps : List GitLabPipeline) (minPct : ℕ)
    (b pr : String) :
    (∀ pt ∈ groupPipelineTypes ps minPct b pr,
      (minPct : ℚ) ≤ pt.metrics.percentage) ∧
    (groupPipelineTypes ps minPct b pr).Sorted
      (fun a c => c.metrics.total_pipelines ≤ a.metrics.total_pipelines) ∧
    (∀ key cl, (key, cl) ∈ clustersOf ps →
      (createPipelineType key cl ps.length b pr).metrics.total_pipelines =
        cl.length ∧
      (createPipelineType key cl ps.length b pr).metrics.percentage =
        ((cl.length : ℚ) / ((max ps.length 1 : ℕ) : ℚ)) * 100 ∧
      ((minPct : ℚ) ≤ ((cl.length : ℚ) / ((max ps.length 1 : ℕ) : ℚ)) * 100 →
        createPipelineType key cl ps.length b pr ∈
          groupPipelineTypes ps minPct b pr)) ∧
    (∀ pt ∈ groupPipelineTypes ps minPct b pr, ∃ key cl,
      (key, cl) ∈ clustersOf ps ∧
      pt = createPipelineType key cl ps.length b pr) ∧
    ((groupPipelineTypes exScenarioPipelines 25 b pr).map
      (fun pt => pt.metrics.total_pipelines) = [8]) ∧
    ((groupPipelineTypes exScenarioPipelines 10 b pr).map
      (fun pt => pt.metrics.total_pipelines) = [8, 2]) := by
  haveI hTot : IsTotal PipelineType
      (fun a c => c.metrics.total_pipelines ≤ a.metrics.total_pipelines) :=
    ⟨fun a c => le_total _ _⟩
  haveI hTrans : IsTrans PipelineType
      (fun a c => c.metrics.total_pipelines ≤ a.metrics.total_pipelines) :=
    ⟨fun _ _ _ h1 h2 => le_trans h2 h1⟩
  refine ⟨?_, ?_, ?_, ?_, ?_, ?_⟩
  · intro pt hpt
    have hmem : pt ∈ List.insertionSort
        (fun a c => c.metrics.total_pipelines ≤ a.metrics.total_pipelines)
        (((clustersOf ps).map (fun e =>
          createPipelineType e.1 e.2 ps.length b pr)).filter
          (fun pt => (minPct : ℚ) ≤ pt.metrics.percentage)) := hpt
    have hfil := (List.perm_insertionSort
      (fun a c : PipelineType =>
        c.metrics.total_pipelines ≤ a.metrics.total_pipelines) _).mem_iff.mp hmem
    exact of_decide_eq_true (List.mem_filter.mp hfil).2
  · show List.Sorted _ (List.insertionSort _ _)
    exact List.sorted_insertionSort _ _
  · intro key cl hent
    refine ⟨rfl, rfl, ?_⟩
    intro hle
    have hmap : createPipelineType key cl ps.length b pr ∈
        (clustersOf ps).map (fun e =>
          createPipelineType e.1 e.2 ps.length b pr) :=
      List.mem_map.mpr ⟨(key, cl), hent, rfl⟩
    have hfil : createPipelineType key cl ps.length b pr ∈
        ((clustersOf ps).map (fun e =>
          createPipelineType e.1 e.2 ps.length b pr)).filter
          (fun pt => (minPct : ℚ) ≤ pt.metrics.percentage) :=
      List.mem_filter.mpr ⟨hmap, by exact decide_eq_true hle⟩
    show createPipelineType key cl ps.length b pr ∈ List.insertionSort
        (fun a c => c.metrics.total_pipelines ≤ a.metrics.total_pipelines)
        (((clustersOf ps).map (fun e =>
          createPipelineType e.1 e.2 ps.length b pr)).filter
          (fun pt => (minPct : ℚ) ≤ pt.metrics.percentage))
    exact (List.perm_insertionSort
      (fun a c : PipelineType =>
        c.metrics.total_pipelines ≤ a.metrics.total_pipelines) _).mem_iff.mpr hfil
  · intro pt hpt
    have hmem : pt ∈ List.insertionSort
        (fun a c => c.metrics.total_pipelines ≤ a.metrics.total_pipelines)
        (((clustersOf ps).map (fun e =>
          createPipelineType e.1 e.2 ps.length b pr)).filter
          (fun pt => (minPct : ℚ) ≤ pt.metrics.percentage)) := hpt
    have hfil := (List.perm_insertionSort
      (fun a c : PipelineType =>
        c.metrics.total_pipelines ≤ a.metrics.total_pipelines) _).mem_iff.mp hmem
    obtain ⟨e, he, heq⟩ := List.mem_map.mp (List.mem_filter.mp hfil).1
    exact ⟨e.1, e.2, he, heq.symm⟩
  · with_unfolding_all rfl
  · with_unfolding_all rfl

/-- Witness for C5: at the 8/2 scenario with threshold 25, the size-8
cluster's pipeline type is emitted. -/
theorem group_pipeline_types_spec_witness :
    createPipelineType ["alpha"] (List.replicate 8 exClusterPipeA)
      exScenarioPipelines.length "https://gitlab.example" "g/p" ∈
      groupPipelineTypes exScenarioPipelines 25 "https://gitlab.example" "g/p" :=
  (((group_pipeline_types_spec exScenarioPipelines 25 "https://gitlab.example"
    "g/p").2.2.1 ["alpha"] (List.replicate 8 exClusterPipeA)
    (by with_unfolding_all decide)).2.2) (by with_unfolding_all decide)

/-! ## C7: status-split fetch with pagination -/

/-- C7: `fetch_pipelines` is the SUCCESS stream followed by the FAILED
stream, each stream capped at `limit / 2`, truncated to `limit`; the result
never exceeds `limit`; and every page request the pagination loop sends asks
for between 1 and 50 items (`min(remaining, 50)` with positive
remaining). -/
theorem fetch_pipelines_split_spec {PS : Type} (remote : Remote PS)
    (limit fuel : ℕ) :
    (fetchPipelines remote limit fuel =
      ((fetchPipelinesWithStatus remote .SUCCESS (limit / 2) fuel) ++
        (fetchPipelinesWithStatus remote .FAILED (limit / 2) fuel)).take limit) ∧
    ((fetchPipelines remote limit fuel).length ≤ limit) ∧
    (∀ status, (fetchPipelinesWithStatus remote status (limit / 2) fuel).length ≤
      limit / 2) ∧
    (∀ status l f acc cursor, ∀ c ∈ fetchLoopRequests remote status l f acc cursor,
      0 < c ∧ c ≤ 50) := by
  refine ⟨rfl, ?_, ?_, ?_⟩
  · exact List.length_take_le _ _
  · intro status
    exact List.length_take_le _ _
  · intro status l f
    induction f with
    | zero =>
      intro acc cursor c hc
      cases hc
    | succ k ih =>
      intro acc cursor c hc
      simp only [fetchLoopRequests] at hc
      by_cases hrem : l - acc.length = 0
      · rw [if_pos hrem] at hc
        cases hc
      · rw [if_neg hrem] at hc
        have hmain : 0 < min (l - acc.length) 50 ∧ min (l - acc.length) 50 ≤ 50 :=
          ⟨lt_min (Nat.pos_of_ne_zero hrem) (by omega), min_le_right _ _⟩
        split at hc
        · obtain rfl := List.mem_singleton.mp hc
          exact hmain
        · split at hc
          · obtain rfl := List.mem_singleton.mp hc
            exact hmain
          · rcases List.mem_cons.mp hc with rfl | hc'
            · exact hmain
            · exact ih _ _ c hc'

/-- Witness for C7: a remote answering each request exactly, at limit 5. -/
theorem fetch_pipelines_split_spec_witness :
    0 < 2 ∧ 2 ≤ 50 ∧ (fetchPipelines exRemote 5 3).length ≤ 5 := by
  have h := fetch_pipelines_split_spec exRemote 5 3
  have h4 := h.2.2.2 .SUCCESS 2 3 [] none 2 (by decide)
  exact ⟨h4.1, h4.2, h.2.1⟩

end Cilens
